import Mathlib

/-!
# Verification of the distcache core

A shallow embedding of the distcache repository (package distcache and its
sub-packages lru, countminsketch, bloomfilter, consistenthash, singleflight),
with theorems settling the specification's claims about it.

Modelling conventions:
* Go strings and byte slices become lists of naturals, one element per byte.
* Machine integers become Nat / Int; where wrap-around can matter (the uint64
  sketch counters) arithmetic is reduced modulo 2 ^ 64 explicitly.
* Go maps become association lists with overwrite-on-insert; Go arrays and
  counter tables become functions from indices to values (reads outside the
  allocated range never occur on the executions the theorems talk about).
* The doubly-linked recency list of the LRU cache is kept oldest-first: the
  head of the list is Go's ll.Back() (the eviction end) and the last element
  is Go's ll.Front() (the most recently used end).
-/

/-- A Go byte string (string / []byte): one natural per byte. -/
abbrev Bytes := List Nat

/-- distcache.ByteView: a read-only wrapper around a byte slice. -/
structure ByteView where
  b : Bytes
deriving Repr, DecidableEq

deriving instance DecidableEq for Except

/-- distcache.cloneBytes: in the pure model copying a byte slice is the
identity (there is no aliasing to defend against). -/
def cloneBytes (b : Bytes) : Bytes := b

/-- ByteView.Len. -/
def ByteView.len (v : ByteView) : Nat := v.b.length

/-- ByteView.ByteSlice. -/
def ByteView.byteSlice (v : ByteView) : Bytes := cloneBytes v.b

/-- Lookup in an association list (a Go map whose entries are kept as a
list); returns the first binding of the key. -/
def lookupKey {κ β : Type} [DecidableEq κ] : List (κ × β) → κ → Option β
  | [], _ => none
  | e :: es, k => if e.1 = k then some e.2 else lookupKey es k

/-- Remove the first binding of a key from an association list
(Go: delete(m, k), or list.Remove of the element found for the key). -/
def eraseKey {κ β : Type} [DecidableEq κ] : List (κ × β) → κ → List (κ × β)
  | [], _ => []
  | e :: es, k => if e.1 = k then es else e :: eraseKey es k

theorem lookupKey_nil {κ β : Type} [DecidableEq κ] (k : κ) :
    lookupKey ([] : List (κ × β)) k = none := rfl

theorem lookupKey_cons {κ β : Type} [DecidableEq κ] (e : κ × β) (es : List (κ × β)) (k : κ) :
    lookupKey (e :: es) k = if e.1 = k then some e.2 else lookupKey es k := rfl

theorem lookupKey_eq_none {κ β : Type} [DecidableEq κ] (es : List (κ × β)) (k : κ) :
    lookupKey es k = none ↔ k ∉ es.map Prod.fst := by
  induction es with
  | nil => simp [lookupKey]
  | cons e es ih =>
    by_cases h : e.1 = k
    · subst h
      simp [lookupKey]
    · rw [lookupKey_cons, if_neg h, List.map_cons]
      rw [ih]
      constructor
      · intro hn hm
        rcases List.mem_cons.mp hm with hk | hk
        · exact h hk.symm
        · exact hn hk
      · intro hn hm
        exact hn (List.mem_cons_of_mem _ hm)

theorem lookupKey_mem {κ β : Type} [DecidableEq κ] {es : List (κ × β)} {k : κ} {v : β}
    (h : lookupKey es k = some v) : (k, v) ∈ es := by
  induction es with
  | nil => simp [lookupKey] at h
  | cons e es ih =>
    obtain ⟨k1, v1⟩ := e
    rw [lookupKey_cons] at h
    by_cases he : k1 = k
    · rw [if_pos (by simpa using he)] at h
      have hv : v1 = v := by simpa using h
      subst he
      subst hv
      exact List.mem_cons_self _ _
    · rw [if_neg (by simpa using he)] at h
      exact List.mem_cons_of_mem _ (ih h)

theorem eraseKey_sublist {κ β : Type} [DecidableEq κ] (es : List (κ × β)) (k : κ) :
    List.Sublist (eraseKey es k) es := by
  induction es with
  | nil => simp [eraseKey]
  | cons e es ih =>
    by_cases h : e.1 = k
    · have he : eraseKey (e :: es) k = es := by simp [eraseKey, h]
      rw [he]
      exact List.sublist_cons_self e es
    · have he : eraseKey (e :: es) k = e :: eraseKey es k := by simp [eraseKey, h]
      rw [he]
      exact ih.cons₂ e

theorem eraseKey_of_lookup_none {κ β : Type} [DecidableEq κ] {es : List (κ × β)} {k : κ}
    (h : lookupKey es k = none) : eraseKey es k = es := by
  induction es with
  | nil => rfl
  | cons e es ih =>
    by_cases he : e.1 = k
    · simp [lookupKey, he] at h
    · rw [lookupKey_cons, if_neg he] at h
      simp [eraseKey, he, ih h]

theorem not_mem_map_fst_eraseKey {κ β : Type} [DecidableEq κ] {es : List (κ × β)} {k : κ}
    (hnd : (es.map Prod.fst).Nodup) : k ∉ (eraseKey es k).map Prod.fst := by
  induction es with
  | nil => simp [eraseKey]
  | cons e es ih =>
    simp only [List.map_cons, List.nodup_cons] at hnd
    by_cases he : e.1 = k
    · subst he
      simpa [eraseKey] using hnd.1
    · rw [eraseKey, if_neg he, List.map_cons]
      intro hmem
      rcases List.mem_cons.mp hmem with hk | hk
      · exact he hk.symm
      · exact ih hnd.2 hk

theorem lookupKey_append_last {κ β : Type} [DecidableEq κ] {es : List (κ × β)} {k : κ}
    (h : k ∉ es.map Prod.fst) (v : β) : lookupKey (es ++ [(k, v)]) k = some v := by
  induction es with
  | nil => simp [lookupKey]
  | cons e es ih =>
    have hne : e.1 ≠ k := by
      intro hk
      exact h (by simp [hk])
    rw [List.cons_append, lookupKey_cons, if_neg hne]
    exact ih fun hm => h (List.mem_cons_of_mem _ hm)

theorem lookupKey_unique {κ β : Type} [DecidableEq κ] {es : List (κ × β)} {k : κ} {v w : β}
    (hnd : (es.map Prod.fst).Nodup) (hmem : (k, v) ∈ es) (hl : lookupKey es k = some w) :
    v = w := by
  induction es with
  | nil => simp at hmem
  | cons e es ih =>
    simp only [List.map_cons, List.nodup_cons] at hnd
    rcases List.mem_cons.mp hmem with he | he
    · rw [← he] at hl
      rw [lookupKey_cons, if_pos rfl] at hl
      simpa using hl
    · by_cases hk : e.1 = k
      · exact absurd (by simpa [hk] using List.mem_map_of_mem Prod.fst he) hnd.1
      · rw [lookupKey_cons, if_neg hk] at hl
        exact ih hnd.2 he hl

theorem lookupKey_eraseKey_ne {κ β : Type} [DecidableEq κ] (es : List (κ × β)) {k q : κ}
    (h : q ≠ k) : lookupKey (eraseKey es k) q = lookupKey es q := by
  induction es with
  | nil => rfl
  | cons e es ih =>
    by_cases he : e.1 = k
    · have h2 : e.1 ≠ q := fun hq => h (by rw [← hq, he])
      simp [eraseKey, if_pos he, lookupKey_cons, if_neg h2]
    · simp [eraseKey, if_neg he, lookupKey_cons, ih]

theorem lookupKey_suffix_eq {κ β : Type} [DecidableEq κ] {es1 es : List (κ × β)} {k : κ}
    {v w : β} (hfree : k ∉ es.map Prod.fst)
    (hsuf : List.IsSuffix es1 (es ++ [(k, v)]))
    (hl : lookupKey es1 k = some w) : w = v := by
  have hmem : (k, w) ∈ es ++ [(k, v)] := hsuf.subset (lookupKey_mem hl)
  rcases List.mem_append.mp hmem with hm | hm
  · exact absurd (List.mem_map_of_mem Prod.fst hm) hfree
  · exact (Prod.mk.inj (List.mem_singleton.mp hm)).2

/-! ## Package lru: the bounded LRU cache (lru.Cache) -/

namespace Lru

/-- lru.Cache. `entries` is the recency list, oldest first (the head is Go's
ll.Back()); the Go map cache is the derived view lookupKey entries.
The eviction callback onEvicted never modifies the cache and the sharded
cache of distcache always passes nil for it, so it is not part of the state. -/
structure Cache where
  maxBytes : Int
  nbytes : Int
  entries : List (Bytes × ByteView)
deriving Repr, DecidableEq

/-- lru.New (the callback argument is dropped, see Cache). -/
def new (maxBytes : Int) : Cache :=
  { maxBytes := maxBytes, nbytes := 0, entries := [] }

/-- len(key) + value.Len() of one resident entry, as the int64 arithmetic of
the source computes it. -/
def entryBytes (e : Bytes × ByteView) : Int :=
  (e.1.length : Int) + (e.2.len : Int)

/-- Total bytes of a list of resident entries. -/
def entriesBytes (es : List (Bytes × ByteView)) : Int :=
  (es.map entryBytes).sum

/-- The eviction loop of lru.Cache.Add: while maxBytes != 0 and
maxBytes < nbytes, RemoveOldest (drop the head = Go's ll.Back()).
Go would spin forever on an empty over-budget cache; that state is
unreachable when the byte accounting holds, and the model returns it as is. -/
def evictLoop (maxBytes : Int) : Int → List (Bytes × ByteView) → Int × List (Bytes × ByteView)
  | nbytes, [] => (nbytes, [])
  | nbytes, e :: es =>
    if maxBytes ≠ 0 ∧ maxBytes < nbytes then
      evictLoop maxBytes (nbytes - entryBytes e) es
    else
      (nbytes, e :: es)

/-- lru.Cache.Add. -/
def Cache.add (c : Cache) (key : Bytes) (val : ByteView) : Cache :=
  let c1 : Cache :=
    match lookupKey c.entries key with
    | some old =>
      { c with
        entries := eraseKey c.entries key ++ [(key, val)],
        nbytes := c.nbytes + (val.len : Int) - (old.len : Int) }
    | none =>
      { c with
        entries := c.entries ++ [(key, val)],
        nbytes := c.nbytes + (key.length : Int) + (val.len : Int) }
  let r := evictLoop c1.maxBytes c1.nbytes c1.entries
  { c1 with nbytes := r.1, entries := r.2 }

/-- lru.Cache.Get: on a hit the entry moves to the front of the recency
order (the end of the oldest-first list). -/
def Cache.get (c : Cache) (key : Bytes) : Option ByteView × Cache :=
  match lookupKey c.entries key with
  | some v => (some v, { c with entries := eraseKey c.entries key ++ [(key, v)] })
  | none => (none, c)

/-- lru.Cache.Remove. -/
def Cache.remove (c : Cache) (key : Bytes) : Cache :=
  match lookupKey c.entries key with
  | some v =>
    { c with
      entries := eraseKey c.entries key,
      nbytes := c.nbytes - ((key.length : Int) + (v.len : Int)) }
  | none => c

/-- lru.Cache.RemoveOldest (drop the head of the oldest-first list). -/
def Cache.removeOldest (c : Cache) : Cache :=
  match c.entries with
  | [] => c
  | e :: es => { c with entries := es, nbytes := c.nbytes - entryBytes e }

/-- lru.Cache.Len. -/
def Cache.len (c : Cache) : Nat := c.entries.length

/-- An Add or Remove call on one LRU shard. -/
inductive Op : Type
  | add (key : Bytes) (val : ByteView) : Op
  | remove (key : Bytes) : Op
deriving Repr, DecidableEq

/-- Run one operation. -/
def Cache.applyOp (c : Cache) : Op → Cache
  | .add k v => c.add k v
  | .remove k => c.remove k

/-- Run a finite sequence of Add / Remove operations. -/
def applyOps (c : Cache) (ops : List Op) : Cache :=
  ops.foldl Cache.applyOp c

/-- Well-formedness of a shard state: the byte counter matches the resident
entries, the keys are distinct, and an over-budget state can only be the
(unreachable) empty one. -/
def Wf (c : Cache) : Prop :=
  c.nbytes = entriesBytes c.entries ∧
    (c.entries.map Prod.fst).Nodup ∧
    (c.maxBytes ≠ 0 → c.nbytes ≤ c.maxBytes ∨ c.entries = [])

theorem entryBytes_nonneg (e : Bytes × ByteView) : 0 ≤ entryBytes e := by
  have h1 : (0 : Int) ≤ (e.1.length : Int) := Int.ofNat_nonneg _
  have h2 : (0 : Int) ≤ (e.2.len : Int) := Int.ofNat_nonneg _
  unfold entryBytes
  omega

theorem entriesBytes_nil : entriesBytes [] = 0 := rfl

theorem entriesBytes_cons (e : Bytes × ByteView) (es : List (Bytes × ByteView)) :
    entriesBytes (e :: es) = entryBytes e + entriesBytes es := by
  simp [entriesBytes]

theorem entriesBytes_append (es ts : List (Bytes × ByteView)) :
    entriesBytes (es ++ ts) = entriesBytes es + entriesBytes ts := by
  simp [entriesBytes]

theorem entriesBytes_eraseKey {es : List (Bytes × ByteView)} {k : Bytes} {v : ByteView}
    (h : lookupKey es k = some v) :
    entriesBytes (eraseKey es k) = entriesBytes es - ((k.length : Int) + (v.len : Int)) := by
  induction es with
  | nil => simp [lookupKey] at h
  | cons e es ih =>
    by_cases he : e.1 = k
    · rw [lookupKey_cons, if_pos he] at h
      have hv : e.2 = v := by simpa using h
      have hb : entryBytes e = (k.length : Int) + (v.len : Int) := by
        rw [entryBytes, he, hv]
      rw [eraseKey, if_pos he, entriesBytes_cons, hb]
      omega
    · rw [lookupKey_cons, if_neg he] at h
      rw [eraseKey, if_neg he, entriesBytes_cons, entriesBytes_cons, ih h]
      omega

theorem evictLoop_suffix (mb : Int) (nb : Int) (es : List (Bytes × ByteView)) :
    List.IsSuffix (evictLoop mb nb es).2 es := by
  induction es generalizing nb with
  | nil => simp [evictLoop]
  | cons e es ih =>
    by_cases h : mb ≠ 0 ∧ mb < nb
    · simpa [evictLoop, h] using (ih (nb - entryBytes e)).trans (List.suffix_cons e es)
    · simp [evictLoop, h]

theorem evictLoop_acct (mb : Int) {nb : Int} {es : List (Bytes × ByteView)}
    (h : nb = entriesBytes es) :
    (evictLoop mb nb es).1 = entriesBytes (evictLoop mb nb es).2 := by
  induction es generalizing nb with
  | nil => simpa [evictLoop] using h
  | cons e es ih =>
    by_cases hc : mb ≠ 0 ∧ mb < nb
    · have h1 : nb - entryBytes e = entriesBytes es := by
        rw [h, entriesBytes_cons]; omega
      simpa [evictLoop, hc] using ih h1
    · simpa [evictLoop, hc] using h

theorem evictLoop_bound (mb : Int) (nb : Int) (es : List (Bytes × ByteView)) (hmb : mb ≠ 0) :
    (evictLoop mb nb es).1 ≤ mb ∨ (evictLoop mb nb es).2 = [] := by
  induction es generalizing nb with
  | nil => simp [evictLoop]
  | cons e es ih =>
    by_cases hc : mb ≠ 0 ∧ mb < nb
    · simpa [evictLoop, hc] using ih (nb - entryBytes e)
    · have hle : nb ≤ mb := by
        rcases not_and_or.mp hc with h | h
        · exact absurd hmb h
        · omega
      simp [evictLoop, hc, hle]

theorem wf_new (maxBytes : Int) : Wf (new maxBytes) :=
  ⟨rfl, by simp [new], fun _ => Or.inr rfl⟩

theorem wf_evicted {mb nb : Int} {es : List (Bytes × ByteView)}
    (h1 : nb = entriesBytes es) (h2 : (es.map Prod.fst).Nodup) :
    Wf { maxBytes := mb, nbytes := (evictLoop mb nb es).1,
         entries := (evictLoop mb nb es).2 } := by
  refine ⟨evictLoop_acct mb h1, ?_, ?_⟩
  · exact h2.sublist ((evictLoop_suffix mb nb es).sublist.map Prod.fst)
  · intro hne
    exact evictLoop_bound mb nb es hne

theorem wf_add {c : Cache} (hw : Wf c) (key : Bytes) (val : ByteView) :
    Wf (c.add key val) := by
  obtain ⟨hacct, hnd, _⟩ := hw
  unfold Cache.add
  cases hl : lookupKey c.entries key with
  | some old =>
    simp only [hl]
    apply wf_evicted
    · rw [entriesBytes_append, entriesBytes_eraseKey hl, entriesBytes_cons,
        entriesBytes_nil, entryBytes, hacct]
      simp only [ByteView.len]
      omega
    · have hk : key ∉ (eraseKey c.entries key).map Prod.fst :=
        not_mem_map_fst_eraseKey hnd
      have hsub : ((eraseKey c.entries key).map Prod.fst).Nodup :=
        hnd.sublist ((eraseKey_sublist _ _).map Prod.fst)
      rw [List.map_append]
      refine List.Nodup.append hsub (by simp) ?_
      intro a ha hb
      simp only [List.map_cons, List.map_nil, List.mem_singleton] at hb
      subst hb
      exact hk ha
  | none =>
    simp only [hl]
    apply wf_evicted
    · rw [entriesBytes_append, entriesBytes_cons, entriesBytes_nil, entryBytes, hacct]
      simp only [ByteView.len]
      omega
    · have hk : key ∉ c.entries.map Prod.fst := (lookupKey_eq_none _ _).mp hl
      rw [List.map_append]
      refine List.Nodup.append hnd (by simp) ?_
      intro a ha hb
      simp only [List.map_cons, List.map_nil, List.mem_singleton] at hb
      subst hb
      exact hk ha

theorem wf_remove {c : Cache} (hw : Wf c) (key : Bytes) : Wf (c.remove key) := by
  obtain ⟨hacct, hnd, hb⟩ := hw
  unfold Cache.remove
  cases hl : lookupKey c.entries key with
  | some v =>
    simp only [hl]
    refine ⟨?_, ?_, ?_⟩
    · show c.nbytes - ((key.length : Int) + (v.len : Int)) = entriesBytes (eraseKey c.entries key)
      rw [entriesBytes_eraseKey hl, hacct]
    · exact hnd.sublist ((eraseKey_sublist _ _).map Prod.fst)
    · intro hne
      rcases hb hne with h | h
      · left
        show c.nbytes - ((key.length : Int) + (v.len : Int)) ≤ c.maxBytes
        have h1 : (0 : Int) ≤ (key.length : Int) := Int.ofNat_nonneg _
        have h2 : (0 : Int) ≤ (v.len : Int) := Int.ofNat_nonneg _
        omega
      · rw [h, lookupKey_nil] at hl
        cases hl
  | none =>
    simp only [hl]
    exact ⟨hacct, hnd, hb⟩

theorem wf_applyOps {c : Cache} (hw : Wf c) (ops : List Op) : Wf (applyOps c ops) := by
  induction ops generalizing c with
  | nil => simpa [applyOps] using hw
  | cons op ops ih =>
    have h1 : Wf (c.applyOp op) := by
      cases op with
      | add k v => exact wf_add hw k v
      | remove k => exact wf_remove hw k
    simpa [applyOps] using ih h1

theorem maxBytes_add (c : Cache) (k : Bytes) (v : ByteView) :
    (c.add k v).maxBytes = c.maxBytes := by
  unfold Cache.add
  cases hl : lookupKey c.entries k <;> simp [hl]

theorem maxBytes_remove (c : Cache) (k : Bytes) :
    (c.remove k).maxBytes = c.maxBytes := by
  unfold Cache.remove
  cases hl : lookupKey c.entries k <;> simp [hl]

theorem maxBytes_applyOps (c : Cache) (ops : List Op) :
    (applyOps c ops).maxBytes = c.maxBytes := by
  induction ops generalizing c with
  | nil => rfl
  | cons op ops ih =>
    have h1 : (c.applyOp op).maxBytes = c.maxBytes := by
      cases op with
      | add k v => exact maxBytes_add c k v
      | remove k => exact maxBytes_remove c k
    calc (applyOps c (op :: ops)).maxBytes
        = (applyOps (c.applyOp op) ops).maxBytes := rfl
      _ = (c.applyOp op).maxBytes := ih (c.applyOp op)
      _ = c.maxBytes := h1

/-- Adding a fresh key appends it at the most-recent end; eviction can then
only drop oldest entries, so the result is a suffix of entries ++ [(k, v)]. -/
theorem add_entries_suffix_of_none {c : Cache} {k : Bytes} (v : ByteView)
    (hl : lookupKey c.entries k = none) :
    List.IsSuffix (c.add k v).entries (c.entries ++ [(k, v)]) := by
  unfold Cache.add
  simp only [hl]
  exact evictLoop_suffix _ _ _

/-- Claim C4: after any finite sequence of Add / Remove operations on an LRU
shard, the byte counter equals the sum of len(key) + value.Len() over the
resident entries, and when max-bytes is positive the counter never exceeds
it. -/
theorem lru_byte_accounting (maxBytes : Int) (ops : List Op) :
    (applyOps (new maxBytes) ops).nbytes =
        entriesBytes (applyOps (new maxBytes) ops).entries ∧
      (0 < maxBytes → (applyOps (new maxBytes) ops).nbytes ≤ maxBytes) := by
  have hw : Wf (applyOps (new maxBytes) ops) := wf_applyOps (wf_new maxBytes) ops
  obtain ⟨hacct, _, hb⟩ := hw
  refine ⟨hacct, fun hpos => ?_⟩
  have hmx : (applyOps (new maxBytes) ops).maxBytes = maxBytes :=
    maxBytes_applyOps (new maxBytes) ops
  rw [hmx] at hb
  rcases hb (by omega) with h | h
  · exact h
  · rw [hacct, h, entriesBytes_nil]
    omega

end Lru

/-! ## 32-bit FNV hashes (hash/fnv), as used by the shard selector, the
bloom filter and the sketch. -/

/-- fnv.New32 (FNV-1): multiply by the prime, then xor the byte,
in uint32 arithmetic. -/
def fnv32 (bs : Bytes) : Nat :=
  bs.foldl (fun h b => ((h * 16777619) % 2 ^ 32) ^^^ b) 2166136261

/-- fnv.New32a (FNV-1a): xor the byte, then multiply by the prime,
in uint32 arithmetic. -/
def fnv32a (bs : Bytes) : Nat :=
  bs.foldl (fun h b => ((h ^^^ b) * 16777619) % 2 ^ 32) 2166136261

/-! ## Package bloomfilter -/

/-- bloomfilter.BloomFilter: m bits, k probes. The packed bit array
([]uint64) is modelled as the list of indices of the set bits. -/
structure BloomFilter where
  setBits : List Nat
  k : Nat
  m : Nat
deriving Repr, DecidableEq

/-- bloomfilter.NewBloomFilter: all bits clear. -/
def newBloomFilter (size hashes : Nat) : BloomFilter :=
  { setBits := [], k := hashes, m := size }

/-- bloomfilter hash: double hashing with FNV-1a and FNV-1, the second hash
forced odd, reduced modulo m. -/
def BloomFilter.hash (bf : BloomFilter) (key : Bytes) (i : Nat) : Nat :=
  let hash1 := fnv32a key
  let hash2p := fnv32 key
  let hash2 := if hash2p % 2 = 0 then hash2p + 1 else hash2p
  (hash1 + i * hash2) % bf.m

/-- BloomFilter.Add: set the k probe bits (each probe index is reduced
modulo m once more, as in the source). -/
def BloomFilter.add (bf : BloomFilter) (key : Bytes) : BloomFilter :=
  { bf with setBits := (List.range bf.k).map (fun i => bf.hash key i % bf.m) ++ bf.setBits }

/-- BloomFilter.Test: true iff every probe bit is set. -/
def BloomFilter.test (bf : BloomFilter) (key : Bytes) : Bool :=
  (List.range bf.k).all (fun i => bf.setBits.contains (bf.hash key i % bf.m))

/-! ## Package countminsketch -/

/-- countminsketch.CountMinSketch: a depth x width table of uint64 counters.
The table is a function row -> column -> counter value (make initialises all
cells to zero); cell updates reduce modulo 2 ^ 64, as uint64 addition does. -/
structure CountMinSketch where
  width : Nat
  depth : Nat
  table : Nat → Nat → Nat

/-- countminsketch.doubleHash: FNV-1a plus i times (FNV-1 forced odd), in
uint32 arithmetic. -/
def doubleHash (key : Bytes) (i : Nat) : Nat :=
  let sum1 := fnv32a key
  let sum2p := fnv32 key
  let sum2 := if sum2p % 2 = 0 then sum2p + 1 else sum2p
  (sum1 + i * sum2) % 2 ^ 32

/-- The column of a key in row i: hashes[i] reduces doubleHash modulo the
width, and Add / Count reduce once more (both reductions are in the
source). -/
def cmsIdx (width : Nat) (i : Nat) (key : Bytes) : Nat :=
  (doubleHash key i % width) % width

/-- The table of NewCountMinSketch once width and depth are fixed. -/
def mkCountMinSketch (width depth : Nat) : CountMinSketch :=
  { width := width, depth := depth, table := fun _ _ => 0 }

/-- width = ceil(e / epsilon) of NewCountMinSketch. The float64 arithmetic
is modelled by exact reals: for the parameters in use the value is about
ten orders of magnitude away from the nearest integer boundary, so float64
rounding cannot change the ceiling. -/
noncomputable def cmsWidthOf (epsilon : ℝ) : Nat :=
  ⌈Real.exp 1 / epsilon⌉₊

/-- depth = ceil(ln(1 / delta)) of NewCountMinSketch, modelled like
cmsWidthOf. -/
noncomputable def cmsDepthOf (delta : ℝ) : Nat :=
  ⌈Real.log (1 / delta)⌉₊

/-- countminsketch.NewCountMinSketch. -/
noncomputable def newCountMinSketch (epsilon delta : ℝ) : CountMinSketch :=
  mkCountMinSketch (cmsWidthOf epsilon) (cmsDepthOf delta)

/-- CountMinSketch.Add: add count to one cell per row (uint64 wrap-around
kept explicit). -/
def CountMinSketch.add (cms : CountMinSketch) (key : Bytes) (count : Nat) : CountMinSketch :=
  { cms with
    table := fun i j =>
      if i < cms.depth ∧ j = cmsIdx cms.width i key then
        (cms.table i j + count) % 2 ^ 64
      else
        cms.table i j }

/-- CountMinSketch.Count: the minimum over the rows of the key's cell,
starting from MaxUint64. -/
def CountMinSketch.count (cms : CountMinSketch) (key : Bytes) : Nat :=
  (List.range cms.depth).foldl
    (fun m i => min m (cms.table i (cmsIdx cms.width i key))) (2 ^ 64 - 1)

/-- CountMinSketch.Decay: halve every cell of the table. -/
def CountMinSketch.decay (cms : CountMinSketch) : CountMinSketch :=
  { cms with
    table := fun i j =>
      if i < cms.depth ∧ j < cms.width then cms.table i j / 2 else cms.table i j }

/-! ## distcache.HotKeyDetector -/

/-- distcache.HotKeyDetector. The hot-key sync.Map is an association list;
stopClosed records whether the stop channel has been closed. The decay
interval and the background task itself are wall-clock concerns and are not
part of the pure state (no claim exercises a decay tick). -/
structure HotKeyDetector where
  bf : BloomFilter
  cms : CountMinSketch
  hotKeys : List (Bytes × ByteView)
  threshold : Nat
  stopClosed : Bool

/-- NewHotKeyDetector with the sketch dimensions supplied (the source fixes
them from epsilon = 0.001, delta = 0.99; see newHotKeyDetector). -/
def newHotKeyDetectorW (width depth threshold : Nat) : HotKeyDetector :=
  { bf := newBloomFilter 1000000 5,
    cms := mkCountMinSketch width depth,
    hotKeys := [],
    threshold := threshold,
    stopClosed := false }

/-- distcache.NewHotKeyDetector. -/
noncomputable def newHotKeyDetector (threshold : Nat) : HotKeyDetector :=
  newHotKeyDetectorW (cmsWidthOf 0.001) (cmsDepthOf 0.99) threshold

/-- HotKeyDetector.RecordKey (the metrics counters of the source have no
effect on the detector state and are skipped). -/
def HotKeyDetector.recordKey (h : HotKeyDetector) (key : Bytes) (value : ByteView) :
    HotKeyDetector :=
  if h.bf.test key = false then
    { h with bf := h.bf.add key }
  else if h.threshold ≤ (h.cms.add key 1).count key then
    { h with
      cms := h.cms.add key 1,
      hotKeys := (key, value) :: eraseKey h.hotKeys key }
  else
    { h with cms := h.cms.add key 1 }

/-- RecordKey either leaves the key's hot-map binding unchanged or stores
exactly the recorded value for it. -/
theorem recordKey_hotKeys_self (h : HotKeyDetector) (key : Bytes) (value : ByteView) :
    lookupKey (h.recordKey key value).hotKeys key = lookupKey h.hotKeys key ∨
      lookupKey (h.recordKey key value).hotKeys key = some value := by
  unfold HotKeyDetector.recordKey
  by_cases ht : h.bf.test key = false
  · rw [if_pos ht]
    exact Or.inl rfl
  · rw [if_neg ht]
    by_cases hc : h.threshold ≤ (h.cms.add key 1).count key
    · rw [if_pos hc]
      right
      simp [lookupKey_cons]
    · rw [if_neg hc]
      exact Or.inl rfl

/-- HotKeyDetector.GetHot: (zero view, false) on a miss. -/
def HotKeyDetector.getHot (h : HotKeyDetector) (key : Bytes) : ByteView × Bool :=
  match lookupKey h.hotKeys key with
  | none => (⟨[]⟩, false)
  | some v => (v, true)

/-- HotKeyDetector.Stop: close(stopCh). Closing an already-closed channel is
a runtime panic, modelled as none. -/
def HotKeyDetector.stop (h : HotKeyDetector) : Option HotKeyDetector :=
  if h.stopClosed then none else some { h with stopClosed := true }

/-! ## distcache sharded cache (type cache of the sharded variant) -/

/-- The fixed shard count of the sharded cache. -/
def shardCount : Nat := 256

/-- distcache.cache: 256 LRU shards (an array, modelled as a function from
the shard index) plus the hot-key detector. -/
structure SCache where
  shards : Nat → Lru.Cache
  cacheBytes : Int
  hotDetector : HotKeyDetector

/-- distcache.newCache with the sketch dimensions supplied: every shard gets
the budget cacheBytes / 256 (Go int64 division truncates toward zero:
Int.tdiv). -/
def newCacheW (cacheBytes : Int) (width depth hotThreshold : Nat) : SCache :=
  { shards := fun _ => Lru.new (Int.tdiv cacheBytes (shardCount : Int)),
    cacheBytes := cacheBytes,
    hotDetector := newHotKeyDetectorW width depth hotThreshold }

/-- distcache.newCache (the decay interval is not part of the pure state). -/
noncomputable def newCache (cacheBytes : Int) (hotThreshold : Nat) : SCache :=
  { shards := fun _ => Lru.new (Int.tdiv cacheBytes (shardCount : Int)),
    cacheBytes := cacheBytes,
    hotDetector := newHotKeyDetector hotThreshold }

/-- cache.getShard: FNV-1 of the key modulo the shard count. -/
def getShardIdx (key : Bytes) : Nat := fnv32 key % shardCount

/-- cache.add: add to the key's shard, then record the access in the
detector. -/
def SCache.add (c : SCache) (key : Bytes) (value : ByteView) : SCache :=
  let i := getShardIdx key
  { c with
    shards := Function.update c.shards i ((c.shards i).add key value),
    hotDetector := c.hotDetector.recordKey key value }

/-- cache.get: consult the hot map first; on a cold hit move the entry to
the front and record the access (the source spawns go RecordKey, which the
sequential model applies after the result is computed; the metrics counters
are skipped). -/
def SCache.get (c : SCache) (key : Bytes) : Option ByteView × SCache :=
  let hv := c.hotDetector.getHot key
  if hv.2 then
    (some hv.1, c)
  else
    let i := getShardIdx key
    match (c.shards i).get key with
    | (some v, lru1) =>
      (some v,
        { c with
          shards := Function.update c.shards i lru1,
          hotDetector := c.hotDetector.recordKey key v })
    | (none, _) => (none, c)

/-- cache.delete: remove from the key's shard and from the hot map. -/
def SCache.delete (c : SCache) (key : Bytes) : SCache :=
  let i := getShardIdx key
  { c with
    shards := Function.update c.shards i ((c.shards i).remove key),
    hotDetector :=
      { c.hotDetector with hotKeys := eraseKey c.hotDetector.hotKeys key } }

/-- Each shard's keys are distinct (every state reachable from newCache has
this: each shard is a Go map kept in step with the recency list). -/
def SCache.wfShards (c : SCache) : Prop :=
  ∀ i, i < shardCount → (((c.shards i).entries).map Prod.fst).Nodup

instance (c : SCache) : Decidable c.wfShards := by
  unfold SCache.wfShards
  infer_instance

/-! ## distcache.Group

The model covers a group without a registered peer picker (g.peers == nil),
the configuration the loader-path claims describe: load goes through the
coalescer's factory straight to getLocally (the coalescer adds nothing on a
sequential execution; its concurrent contract is modelled separately in the
Singleflight section). The getter is the user loader; errors are its error
strings. Each call returns (result, new state, whether the loader ran). -/

namespace Distcache

/-- distcache.Group: name and peers dropped (no peer picker registered,
and the name only tags replication RPCs). -/
structure Group where
  getter : Bytes → Except String Bytes
  mainCache : SCache

/-- distcache.DefaultHotKeyThreshold. -/
def DefaultHotKeyThreshold : Nat := 10

/-- distcache.NewGroup (the nil-getter panic cannot arise: the getter is a
total function here). -/
noncomputable def newGroup (cacheBytes : Int) (getter : Bytes → Except String Bytes) : Group :=
  { getter := getter, mainCache := newCache cacheBytes DefaultHotKeyThreshold }

/-- Group.set for a group without peers: populate the local cache (there are
no replica peers to propagate to). -/
def Group.set (g : Group) (key : Bytes) (value : ByteView) : Group :=
  { g with mainCache := g.mainCache.add key value }

/-- Group.getLocally: call the loader, clone the bytes, populate the cache
via set, return the view. -/
def Group.getLocally (g : Group) (key : Bytes) : Except String ByteView × Group :=
  match g.getter key with
  | .error e => (.error e, g)
  | .ok bs =>
    let value : ByteView := ⟨cloneBytes bs⟩
    (.ok value, g.set key value)

/-- Group.load for a group without peers: the coalescer factory runs
getLocally; the Bool records that the loader was invoked. -/
def Group.load (g : Group) (key : Bytes) : Except String ByteView × Group × Bool :=
  let r := g.getLocally key
  (r.1, r.2, true)

/-- Group.Get: reject the empty key, else consult the sharded cache, else
load. -/
def Group.get (g : Group) (key : Bytes) : Except String ByteView × Group × Bool :=
  if key = [] then
    (.error "key is required", g, false)
  else
    match g.mainCache.get key with
    | (some v, c1) => (.ok v, { g with mainCache := c1 }, false)
    | (none, c1) => Group.load { g with mainCache := c1 } key

/-- Claim C7: Group.Get with the empty key surfaces the invalid-key error
immediately: the state is untouched and neither the cache lookup nor the
loader contributes (the loader-ran flag is false). -/
theorem group_get_empty_key (g : Group) :
    Group.get g [] = (Except.error "key is required", g, false) := by
  simp [Group.get]

/-- A key is resident in the group's cache: in the hot map or in its LRU
shard. Eviction is the only way a key leaves the cache between two Get
calls, so "no eviction of k occurred during the first call" is "k is still
resident afterwards". -/
def Group.resident (g : Group) (k : Bytes) : Prop :=
  lookupKey g.mainCache.hotDetector.hotKeys k ≠ none ∨
    lookupKey ((g.mainCache.shards (getShardIdx k)).entries) k ≠ none

instance (g : Group) (k : Bytes) : Decidable (g.resident k) := by
  unfold Group.resident
  infer_instance

/-- Group.Get on a hot-map hit: the value comes back unchanged and the state
is untouched. -/
theorem get_of_hot_hit {g : Group} {k : Bytes} {v : ByteView} (hk : k ≠ [])
    (hhot : lookupKey g.mainCache.hotDetector.hotKeys k = some v) :
    Group.get g k = (.ok v, g, false) := by
  have hget : g.mainCache.get k = (some v, g.mainCache) := by
    simp [SCache.get, HotKeyDetector.getHot, hhot]
  unfold Group.get
  rw [if_neg hk, hget]

/-- Group.Get on a cold (LRU) hit: the result, the loader flag, and the two
state components the next call looks at. -/
theorem get_cold_hit_props {g : Group} {k : Bytes} {v : ByteView} (hk : k ≠ [])
    (hhot : lookupKey g.mainCache.hotDetector.hotKeys k = none)
    (hlru : lookupKey ((g.mainCache.shards (getShardIdx k)).entries) k = some v) :
    (Group.get g k).1 = .ok v ∧
      (Group.get g k).2.2 = false ∧
      ((Group.get g k).2.1).mainCache.hotDetector =
        g.mainCache.hotDetector.recordKey k v ∧
      ((Group.get g k).2.1).mainCache.shards (getShardIdx k) =
        { g.mainCache.shards (getShardIdx k) with
          entries := eraseKey (g.mainCache.shards (getShardIdx k)).entries k ++ [(k, v)] } := by
  have hget : g.mainCache.get k =
      (some v,
        { g.mainCache with
          shards := Function.update g.mainCache.shards (getShardIdx k)
            { g.mainCache.shards (getShardIdx k) with
              entries := eraseKey (g.mainCache.shards (getShardIdx k)).entries k ++ [(k, v)] },
          hotDetector := g.mainCache.hotDetector.recordKey k v }) := by
    simp [SCache.get, HotKeyDetector.getHot, hhot, Lru.Cache.get, hlru]
  have hfirst : Group.get g k =
      (.ok v,
        { g with mainCache :=
          { g.mainCache with
            shards := Function.update g.mainCache.shards (getShardIdx k)
              { g.mainCache.shards (getShardIdx k) with
                entries := eraseKey (g.mainCache.shards (getShardIdx k)).entries k ++ [(k, v)] },
            hotDetector := g.mainCache.hotDetector.recordKey k v } },
        false) := by
    unfold Group.get
    rw [if_neg hk, hget]
  rw [hfirst]
  refine ⟨rfl, rfl, rfl, ?_⟩
  exact Function.update_same _ _ _

/-- Group.Get on a full miss with a succeeding loader: the result, the
loader flag, and the two state components the next call looks at. -/
theorem get_miss_props {g : Group} {k : Bytes} {bs : Bytes} (hk : k ≠ [])
    (hhot : lookupKey g.mainCache.hotDetector.hotKeys k = none)
    (hlru : lookupKey ((g.mainCache.shards (getShardIdx k)).entries) k = none)
    (hgt : g.getter k = .ok bs) :
    (Group.get g k).1 = .ok ⟨bs⟩ ∧
      (Group.get g k).2.2 = true ∧
      ((Group.get g k).2.1).mainCache.hotDetector =
        g.mainCache.hotDetector.recordKey k ⟨bs⟩ ∧
      ((Group.get g k).2.1).mainCache.shards (getShardIdx k) =
        (g.mainCache.shards (getShardIdx k)).add k ⟨bs⟩ := by
  have hget : g.mainCache.get k = (none, g.mainCache) := by
    simp [SCache.get, HotKeyDetector.getHot, hhot, Lru.Cache.get, hlru]
  have hfirst : Group.get g k =
      (.ok ⟨bs⟩,
        { g with mainCache :=
          { g.mainCache with
            shards := Function.update g.mainCache.shards (getShardIdx k)
              ((g.mainCache.shards (getShardIdx k)).add k ⟨bs⟩),
            hotDetector := g.mainCache.hotDetector.recordKey k ⟨bs⟩ } },
        true) := by
    unfold Group.get
    rw [if_neg hk, hget]
    simp [Group.load, Group.getLocally, hgt, Group.set, SCache.add, cloneBytes]
  rw [hfirst]
  refine ⟨rfl, rfl, rfl, ?_⟩
  exact Function.update_same _ _ _

/-- Group.Get on a full miss with a failing loader surfaces the loader's
error. -/
theorem get_miss_error {g : Group} {k : Bytes} {e : String} (hk : k ≠ [])
    (hhot : lookupKey g.mainCache.hotDetector.hotKeys k = none)
    (hlru : lookupKey ((g.mainCache.shards (getShardIdx k)).entries) k = none)
    (hgt : g.getter k = .error e) :
    (Group.get g k).1 = .error e := by
  have hget : g.mainCache.get k = (none, g.mainCache) := by
    simp [SCache.get, HotKeyDetector.getHot, hhot, Lru.Cache.get, hlru]
  unfold Group.get
  rw [if_neg hk, hget]
  simp [Group.load, Group.getLocally, hgt]

/-- Claim C1: if Group.Get(k) returns v (on the miss path this is the value
the loader produced, which set then stored in the local cache) and k is not
evicted during that call — it is still resident afterwards — then an
immediate second Group.Get(k) returns the same v and does not invoke the
loader. -/
theorem group_get_roundtrip (g : Group) (k : Bytes) (v : ByteView)
    (hwf : g.mainCache.wfShards)
    (h1 : (Group.get g k).1 = Except.ok v)
    (h2 : ((Group.get g k).2.1).resident k) :
    (Group.get (Group.get g k).2.1 k).1 = Except.ok v ∧
      (Group.get (Group.get g k).2.1 k).2.2 = false := by
  have hk : k ≠ [] := by
    intro hke
    subst hke
    rw [group_get_empty_key] at h1
    simp at h1
  have hsi : getShardIdx k < shardCount := Nat.mod_lt _ (by norm_num [shardCount])
  cases hhot : lookupKey g.mainCache.hotDetector.hotKeys k with
  | some w =>
    have hfirst := get_of_hot_hit hk hhot
    rw [hfirst] at h1 ⊢
    have hv : w = v := by simpa using h1
    subst hv
    rw [get_of_hot_hit hk hhot]
    exact ⟨rfl, rfl⟩
  | none =>
    cases hlru : lookupKey ((g.mainCache.shards (getShardIdx k)).entries) k with
    | some w =>
      obtain ⟨hres, _, hdet, hshard⟩ := get_cold_hit_props hk hhot hlru
      rw [h1] at hres
      have hv : w = v := by simpa using hres.symm
      subst hv
      rcases recordKey_hotKeys_self g.mainCache.hotDetector k w with hh | hh
      · -- the hot map still has no binding for k: cold hit again
        rw [hhot] at hh
        have hhot2 : lookupKey ((Group.get g k).2.1).mainCache.hotDetector.hotKeys k = none := by
          rw [hdet]; exact hh
        have hfree : k ∉ ((eraseKey (g.mainCache.shards (getShardIdx k)).entries k).map
            Prod.fst) := not_mem_map_fst_eraseKey (hwf _ hsi)
        have hlru2 : lookupKey ((((Group.get g k).2.1).mainCache.shards
            (getShardIdx k)).entries) k = some w := by
          rw [hshard]
          exact lookupKey_append_last hfree w
        obtain ⟨hr2, hf2, _, _⟩ := get_cold_hit_props hk hhot2 hlru2
        exact ⟨hr2, hf2⟩
      · -- RecordKey promoted k: hot hit
        have hhot2 : lookupKey ((Group.get g k).2.1).mainCache.hotDetector.hotKeys k =
            some w := by
          rw [hdet]; exact hh
        rw [get_of_hot_hit hk hhot2]
        exact ⟨rfl, rfl⟩
    | none =>
      cases hgt : g.getter k with
      | error e =>
        rw [get_miss_error hk hhot hlru hgt] at h1
        simp at h1
      | ok bs =>
        obtain ⟨hres, _, hdet, hshard⟩ := get_miss_props hk hhot hlru hgt
        rw [h1] at hres
        have hv : (⟨bs⟩ : ByteView) = v := by simpa using hres.symm
        subst hv
        have hfree : k ∉ ((g.mainCache.shards (getShardIdx k)).entries.map Prod.fst) :=
          (lookupKey_eq_none _ _).mp hlru
        have hsuf : List.IsSuffix (((Group.get g k).2.1).mainCache.shards
            (getShardIdx k)).entries
            ((g.mainCache.shards (getShardIdx k)).entries ++ [(k, (⟨bs⟩ : ByteView))]) := by
          rw [hshard]
          exact Lru.add_entries_suffix_of_none _ hlru
        rcases recordKey_hotKeys_self g.mainCache.hotDetector k ⟨bs⟩ with hh | hh
        · -- k was not promoted; residency forces the LRU entry to be there
          rw [hhot] at hh
          have hhot2 : lookupKey ((Group.get g k).2.1).mainCache.hotDetector.hotKeys k =
              none := by
            rw [hdet]; exact hh
          rcases h2 with h2 | h2
          · exact absurd hhot2 h2
          · obtain ⟨w1, hw1⟩ := Option.ne_none_iff_exists'.mp h2
            have hwv : w1 = (⟨bs⟩ : ByteView) := lookupKey_suffix_eq hfree hsuf hw1
            subst hwv
            obtain ⟨hr2, hf2, _, _⟩ := get_cold_hit_props hk hhot2 hw1
            exact ⟨hr2, hf2⟩
        · have hhot2 : lookupKey ((Group.get g k).2.1).mainCache.hotDetector.hotKeys k =
              some ⟨bs⟩ := by
            rw [hdet]; exact hh
          rw [get_of_hot_hit hk hhot2]
          exact ⟨rfl, rfl⟩

/-- A concrete group for exercising the round trip: unbounded budget, a
loader that returns the byte "V". -/
def roundTripGroup : Group :=
  { getter := fun _ => .ok [86],
    mainCache := newCacheW 0 2719 1 10 }

set_option maxRecDepth 10000 in
theorem group_get_roundtrip_witness :
    (roundTripGroup.mainCache.wfShards ∧
        (Group.get roundTripGroup [107]).1 = Except.ok ⟨[86]⟩ ∧
        ((Group.get roundTripGroup [107]).2.1).resident [107]) ∧
      ((Group.get (Group.get roundTripGroup [107]).2.1 [107]).1 = Except.ok ⟨[86]⟩ ∧
        (Group.get (Group.get roundTripGroup [107]).2.1 [107]).2.2 = false) :=
  ⟨⟨by decide, by decide, by decide⟩,
    group_get_roundtrip roundTripGroup [107] ⟨[86]⟩ (by decide) (by decide) (by decide)⟩

end Distcache

/-- Claim C8 counterexample: on a freshly constructed detector a first
Stop() succeeds, and a second Stop() closes the already-closed stop channel,
which panics — it is not permitted, contradicting the claimed idempotence. -/
theorem stop_twice_panics :
    ((newHotKeyDetectorW 2719 1 10).stop).isSome = true ∧
      Option.bind ((newHotKeyDetectorW 2719 1 10).stop) HotKeyDetector.stop = none := by
  constructor <;> rfl

/-- Claim C8 (amended): Stop() is not idempotent: on a detector whose stop
channel is still open the first Stop() succeeds (it ends the background
decay task by closing the channel), and a second Stop() panics (close of a
closed channel), modelled as none. -/
theorem stop_not_idempotent (h : HotKeyDetector) (hs : h.stopClosed = false) :
    ∃ h1, h.stop = some h1 ∧ h1.stop = none := by
  refine ⟨{ h with stopClosed := true }, ?_, ?_⟩ <;> simp [HotKeyDetector.stop, hs]

theorem stop_not_idempotent_witness :
    (newHotKeyDetectorW 2719 1 10).stopClosed = false ∧
      ∃ h1, (newHotKeyDetectorW 2719 1 10).stop = some h1 ∧ h1.stop = none :=
  ⟨rfl, stop_not_idempotent (newHotKeyDetectorW 2719 1 10) rfl⟩

/-- Total resident bytes over all shards of the group's cache. -/
def totalCachedBytes (c : SCache) : Int :=
  ∑ i ∈ Finset.range shardCount, (c.shards i).nbytes

theorem sum_nbytes_update (f : Nat → Lru.Cache) (i : Nat) (c : Lru.Cache)
    (hi : i < shardCount) :
    (∑ j ∈ Finset.range shardCount, (Function.update f i c j).nbytes) =
      c.nbytes + ∑ j ∈ Finset.range shardCount \ {i}, (f j).nbytes := by
  have hpt : ∀ j, (Function.update f i c j).nbytes =
      Function.update (fun x => (f x).nbytes) i c.nbytes j := by
    intro j
    by_cases hj : j = i
    · subst hj; simp
    · simp [Function.update_noteq hj]
  simp only [hpt]
  exact Finset.sum_update_of_mem (Finset.mem_range.mpr hi) _ _

/-- Claim C9: for a total byte budget 0 < B < 256, the per-shard budget
B / 256 truncates to 0, which the LRU shard treats as unbounded: the
eviction loop never removes anything at budget 0, and the total resident
bytes of the group's cache can grow past any bound, in particular past B. -/
theorem small_budget_never_evicts (B : Int) (w d T : Nat) (hB0 : 0 < B) (hB : B < 256) :
    Int.tdiv B (shardCount : Int) = 0 ∧
      (∀ i, ((newCacheW B w d T).shards i).maxBytes = 0) ∧
      (∀ (nb : Int) (es : List (Bytes × ByteView)), Lru.evictLoop 0 nb es = (nb, es)) ∧
      (∀ n : Nat, ∃ (key : Bytes) (val : ByteView),
        (n : Int) < totalCachedBytes ((newCacheW B w d T).add key val) ∧
          B < totalCachedBytes ((newCacheW B w d T).add key val)) := by
  have hdiv : Int.tdiv B (shardCount : Int) = 0 := by
    have : (shardCount : Int) = 256 := rfl
    rw [this]
    exact Int.tdiv_eq_zero_of_lt (by omega) (by omega)
  have hnoev : ∀ (nb : Int) (es : List (Bytes × ByteView)), Lru.evictLoop 0 nb es = (nb, es) := by
    intro nb es
    cases es <;> simp [Lru.evictLoop]
  refine ⟨hdiv, fun i => by simp [newCacheW, hdiv, Lru.new], hnoev, ?_⟩
  intro n
  refine ⟨[107], ⟨List.replicate (n + 256) 0⟩, ?_⟩
  have hserve : getShardIdx [107] < shardCount :=
    Nat.mod_lt _ (by norm_num [shardCount])
  have hshard :
      ((newCacheW B w d T).shards (getShardIdx [107])).add [107] ⟨List.replicate (n + 256) 0⟩ =
        { maxBytes := 0, nbytes := 1 + (n + 256 : Nat),
          entries := [([107], ⟨List.replicate (n + 256) 0⟩)] } := by
    simp only [newCacheW, hdiv]
    simp [Lru.Cache.add, Lru.new, lookupKey, hnoev, ByteView.len]
  have htotal :
      totalCachedBytes ((newCacheW B w d T).add [107] ⟨List.replicate (n + 256) 0⟩) =
        1 + (n + 256 : Nat) := by
    simp only [totalCachedBytes, SCache.add]
    rw [sum_nbytes_update _ _ _ hserve, hshard]
    have hz : ∀ j ∈ Finset.range shardCount \ {getShardIdx [107]},
        ((newCacheW B w d T).shards j).nbytes = 0 := by
      intro j _
      simp [newCacheW, Lru.new]
    rw [Finset.sum_congr rfl hz]
    simp
  rw [htotal]
  constructor
  · push_cast
    omega
  · push_cast
    omega

theorem small_budget_never_evicts_witness :
    ((0 : Int) < 100 ∧ (100 : Int) < 256) ∧
      (Int.tdiv 100 (shardCount : Int) = 0 ∧
        (∀ i, ((newCacheW 100 1 1 10).shards i).maxBytes = 0) ∧
        (∀ (nb : Int) (es : List (Bytes × ByteView)), Lru.evictLoop 0 nb es = (nb, es)) ∧
        (∀ n : Nat, ∃ (key : Bytes) (val : ByteView),
          (n : Int) < totalCachedBytes ((newCacheW 100 1 1 10).add key val) ∧
            (100 : Int) < totalCachedBytes ((newCacheW 100 1 1 10).add key val))) :=
  ⟨⟨by decide, by decide⟩, small_budget_never_evicts 100 1 1 10 (by decide) (by decide)⟩

/-! ## Sketch dimensions and counting (claims C6, C10) -/

/-- Run a sequence of Add(key, count) calls on a sketch. -/
def CountMinSketch.applyAdds (s : CountMinSketch) (ops : List (Bytes × Nat)) : CountMinSketch :=
  ops.foldl (fun t kc => t.add kc.1 kc.2) s

theorem applyAdds_width (s : CountMinSketch) (ops : List (Bytes × Nat)) :
    (s.applyAdds ops).width = s.width := by
  induction ops generalizing s with
  | nil => rfl
  | cons kc ops ih => exact ih (s.add kc.1 kc.2)

theorem applyAdds_depth (s : CountMinSketch) (ops : List (Bytes × Nat)) :
    (s.applyAdds ops).depth = s.depth := by
  induction ops generalizing s with
  | nil => rfl
  | cons kc ops ih => exact ih (s.add kc.1 kc.2)

/-- The total count a list of Add calls sends to cell (i, j). -/
def hitSum (width depth i j : Nat) (ops : List (Bytes × Nat)) : Nat :=
  ((ops.filter (fun kc => decide (i < depth ∧ j = cmsIdx width i kc.1))).map Prod.snd).sum

/-- After a sequence of adds a cell holds its previous value plus all the
counts sent to it, reduced modulo 2 ^ 64. -/
theorem applyAdds_table (ops : List (Bytes × Nat)) (s : CountMinSketch) (i j : Nat)
    (hij : s.table i j < 2 ^ 64) :
    (s.applyAdds ops).table i j =
      (s.table i j + hitSum s.width s.depth i j ops) % 2 ^ 64 := by
  induction ops generalizing s with
  | nil =>
    show s.table i j = (s.table i j + hitSum s.width s.depth i j []) % 2 ^ 64
    have : hitSum s.width s.depth i j [] = 0 := rfl
    rw [this, Nat.add_zero, Nat.mod_eq_of_lt hij]
  | cons kc ops ih =>
    have hs1 : (s.add kc.1 kc.2).width = s.width := rfl
    have hs2 : (s.add kc.1 kc.2).depth = s.depth := rfl
    have hstep : (s.applyAdds (kc :: ops)).table i j =
        ((s.add kc.1 kc.2).applyAdds ops).table i j := rfl
    by_cases hcond : i < s.depth ∧ j = cmsIdx s.width i kc.1
    · have hcell : (s.add kc.1 kc.2).table i j = (s.table i j + kc.2) % 2 ^ 64 := by
        simp [CountMinSketch.add, hcond]
      have hlt : (s.add kc.1 kc.2).table i j < 2 ^ 64 := by
        rw [hcell]
        exact Nat.mod_lt _ (by norm_num)
      have hfil : hitSum s.width s.depth i j (kc :: ops) =
          kc.2 + hitSum s.width s.depth i j ops := by
        unfold hitSum
        rw [List.filter_cons_of_pos (by simpa using hcond)]
        simp
      rw [hstep, ih _ hlt, hs1, hs2, hcell, hfil, Nat.mod_add_mod]
      ring_nf
    · have hcell : (s.add kc.1 kc.2).table i j = s.table i j := by
        simp [CountMinSketch.add, hcond]
      have hfil : hitSum s.width s.depth i j (kc :: ops) =
          hitSum s.width s.depth i j ops := by
        unfold hitSum
        rw [List.filter_cons_of_neg (by simpa using hcond)]
      rw [hstep, ih _ (by rw [hcell]; exact hij), hs1, hs2, hcell, hfil]

/-- Lower-bound a fold of minima. -/
theorem le_foldl_min {α : Type} (f : α → Nat) (l : List α) (b m : Nat)
    (hb : m ≤ b) (hl : ∀ x ∈ l, m ≤ f x) :
    m ≤ l.foldl (fun acc x => min acc (f x)) b := by
  induction l generalizing b with
  | nil => exact hb
  | cons x xs ih =>
    exact ih (min b (f x)) (le_min hb (hl x (List.mem_cons_self x xs)))
      fun y hy => hl y (List.mem_cons_of_mem _ hy)

/-- A fold of minima over a constant list. -/
theorem foldl_min_const {α : Type} (f : α → Nat) (l : List α) (b c : Nat)
    (hl : ∀ x ∈ l, f x = c) (hne : l ≠ []) :
    l.foldl (fun acc x => min acc (f x)) b = min b c := by
  induction l generalizing b with
  | nil => exact absurd rfl hne
  | cons x xs ih =>
    rw [List.foldl_cons, hl x (List.mem_cons_self x xs)]
    by_cases hxs : xs = []
    · subst hxs
      rfl
    · rw [ih (min b c) (fun y hy => hl y (List.mem_cons_of_mem _ hy)) hxs]
      rw [min_assoc, min_self]

/-- Monotonicity of filtered sums under a stronger filter. -/
theorem sum_filter_le_sum_filter {α : Type} (l : List α) (p q : α → Bool)
    (hpq : ∀ x, p x = true → q x = true) (f : α → Nat) :
    ((l.filter p).map f).sum ≤ ((l.filter q).map f).sum := by
  induction l with
  | nil => simp
  | cons x xs ih =>
    by_cases hp : p x = true
    · rw [List.filter_cons_of_pos hp, List.filter_cons_of_pos (hpq x hp)]
      simp only [List.map_cons, List.sum_cons]
      omega
    · rw [List.filter_cons_of_neg (by simpa using hp)]
      by_cases hq : q x = true
      · rw [List.filter_cons_of_pos hq]
        simp only [List.map_cons, List.sum_cons]
        omega
      · rw [List.filter_cons_of_neg (by simpa using hq)]
        exact ih

/-- The true total added for key k by a list of Add calls. -/
def trueAddCount (ops : List (Bytes × Nat)) (k : Bytes) : Nat :=
  ((ops.filter (fun kc => decide (kc.1 = k))).map Prod.snd).sum

/-- Claim C6 counterexample: adding 2^64 - 1 and then 1 for the same key
wraps the uint64 counter to zero, so Count under-estimates the true
add-count (2^64) — the claimed lower bound fails without an overflow
proviso. -/
theorem sketch_lower_bound_cex :
    ¬ (trueAddCount [([107], 2 ^ 64 - 1), ([107], 1)] [107] ≤
        ((mkCountMinSketch 2719 1).applyAdds
            [([107], 2 ^ 64 - 1), ([107], 1)]).count [107]) := by
  decide

/-- Claim C6 (amended): for any sequence of Add(x, c) calls with no Decay
and total added count below 2^64 (so the uint64 counters cannot wrap),
Count(k) is at least the sum of the counts added for k. -/
theorem sketch_lower_bound (w d : Nat) (ops : List (Bytes × Nat)) (k : Bytes)
    (hov : (ops.map Prod.snd).sum < 2 ^ 64) :
    trueAddCount ops k ≤ ((mkCountMinSketch w d).applyAdds ops).count k := by
  have hws : ((mkCountMinSketch w d).applyAdds ops).width = w := applyAdds_width _ _
  have hds : ((mkCountMinSketch w d).applyAdds ops).depth = d := applyAdds_depth _ _
  have hsum_le : ∀ (p : Bytes × Nat → Bool),
      ((ops.filter p).map Prod.snd).sum ≤ (ops.map Prod.snd).sum := by
    intro p
    have h1 := sum_filter_le_sum_filter ops p (fun _ => true) (fun x _ => rfl) Prod.snd
    simpa using h1
  have htc_le : trueAddCount ops k ≤ (ops.map Prod.snd).sum := hsum_le _
  unfold CountMinSketch.count
  rw [hws, hds]
  apply le_foldl_min (fun i => ((mkCountMinSketch w d).applyAdds ops).table i (cmsIdx w i k))
  · omega
  · intro i hi
    have hid : i < d := List.mem_range.mp hi
    have hcell := applyAdds_table ops (mkCountMinSketch w d) i (cmsIdx w i k)
      (by show (0 : Nat) < 2 ^ 64; norm_num)
    have hz : (mkCountMinSketch w d).table i (cmsIdx w i k) = 0 := rfl
    have hwd : (mkCountMinSketch w d).width = w := rfl
    have hdd : (mkCountMinSketch w d).depth = d := rfl
    rw [hz, hwd, hdd, Nat.zero_add] at hcell
    have hhit_le : hitSum w d i (cmsIdx w i k) ops ≤ (ops.map Prod.snd).sum := hsum_le _
    have hmod : hitSum w d i (cmsIdx w i k) ops % 2 ^ 64 =
        hitSum w d i (cmsIdx w i k) ops := Nat.mod_eq_of_lt (by omega)
    rw [hcell, hmod]
    unfold trueAddCount hitSum
    apply sum_filter_le_sum_filter
    intro kc hkc
    have hk1 : kc.1 = k := by simpa using hkc
    simp [hk1, hid]

theorem sketch_lower_bound_witness :
    ((([([107], 3), ([107], 4)] : List (Bytes × Nat)).map Prod.snd).sum < 2 ^ 64) ∧
      trueAddCount [([107], 3), ([107], 4)] [107] ≤
        ((mkCountMinSketch 2719 1).applyAdds [([107], 3), ([107], 4)]).count [107] :=
  ⟨by decide, sketch_lower_bound 2719 1 [([107], 3), ([107], 4)] [107] (by decide)⟩

theorem cmsWidthOf_default : cmsWidthOf 0.001 = 2719 := by
  unfold cmsWidthOf
  have he1 : (2.7182818283 : ℝ) < Real.exp 1 := Real.exp_one_gt_d9
  have he2 : Real.exp 1 < 2.7182818286 := Real.exp_one_lt_d9
  have hdiv : Real.exp 1 / (0.001 : ℝ) = 1000 * Real.exp 1 := by
    norm_num
    ring
  rw [hdiv, Nat.ceil_eq_iff (by norm_num)]
  constructor
  · push_cast
    nlinarith
  · push_cast
    nlinarith

theorem cmsDepthOf_default : cmsDepthOf 0.99 = 1 := by
  unfold cmsDepthOf
  have h1 : (1 : ℝ) < 1 / 0.99 := by norm_num
  have hpos : 0 < Real.log (1 / (0.99 : ℝ)) := Real.log_pos h1
  have hle : Real.log (1 / (0.99 : ℝ)) ≤ 1 := by
    have h2 := Real.log_le_sub_one_of_pos (show (0 : ℝ) < 1 / 0.99 by norm_num)
    nlinarith
  rw [Nat.ceil_eq_iff (by norm_num)]
  constructor
  · push_cast
    linarith
  · push_cast
    linarith

/-- A single-row sketch reads a single cell: with depth 1 the count is the
one counter, provided the cell is in the uint64 range (as every reachable
cell is). -/
theorem count_of_depth_one (s : CountMinSketch) (key : Bytes) (hd : s.depth = 1)
    (hcell : s.table 0 (cmsIdx s.width 0 key) < 2 ^ 64) :
    s.count key = s.table 0 (cmsIdx s.width 0 key) := by
  unfold CountMinSketch.count
  rw [hd]
  have h1 : List.range 1 = [0] := rfl
  rw [h1]
  show min (2 ^ 64 - 1) (s.table 0 (cmsIdx s.width 0 key)) =
    s.table 0 (cmsIdx s.width 0 key)
  omega

/-- Claim C10: with the default parameters epsilon = 0.001, delta = 0.99,
NewCountMinSketch computes width = ceil(e / 0.001) = 2719 and
depth = ceil(ln(1 / 0.99)) = 1, so the sketch has exactly one row and, after
any sequence of adds, Count(k) is the value of the single counter
table[0][h_0(k)] rather than a minimum over several rows. -/
theorem default_sketch_is_single_row :
    (newCountMinSketch 0.001 0.99).width = 2719 ∧
      (newCountMinSketch 0.001 0.99).depth = 1 ∧
      ∀ (ops : List (Bytes × Nat)) (k : Bytes),
        ((newCountMinSketch 0.001 0.99).applyAdds ops).count k =
          ((newCountMinSketch 0.001 0.99).applyAdds ops).table 0 (cmsIdx 2719 0 k) := by
  refine ⟨cmsWidthOf_default, cmsDepthOf_default, ?_⟩
  intro ops k
  have hds : ((newCountMinSketch 0.001 0.99).applyAdds ops).depth = 1 := by
    rw [applyAdds_depth]
    exact cmsDepthOf_default
  have hws : ((newCountMinSketch 0.001 0.99).applyAdds ops).width = 2719 := by
    rw [applyAdds_width]
    exact cmsWidthOf_default
  have hlt : ∀ j, ((newCountMinSketch 0.001 0.99).applyAdds ops).table 0 j < 2 ^ 64 := by
    intro j
    rw [applyAdds_table ops _ 0 j (by show (0 : Nat) < 2 ^ 64; norm_num)]
    exact Nat.mod_lt _ (by norm_num)
  have h1 := count_of_depth_one _ k hds (hlt _)
  rw [h1, hws]

/-! ## Hot-key promotion (claim C3) -/

/-- RecordKey applied n times with the same key and value. -/
def recordKeyN (h : HotKeyDetector) (key : Bytes) (value : ByteView) : Nat → HotKeyDetector
  | 0 => h
  | n + 1 => recordKeyN (h.recordKey key value) key value n

theorem recordKeyN_succ (h : HotKeyDetector) (key : Bytes) (value : ByteView) (n : Nat) :
    recordKeyN h key value (n + 1) = (recordKeyN h key value n).recordKey key value := by
  induction n generalizing h with
  | zero => rfl
  | succ n ih =>
    show recordKeyN (h.recordKey key value) key value (n + 1) = _
    rw [ih (h.recordKey key value)]
    rfl

/-- A fresh filter rejects every key (all bits are clear). -/
theorem newBloomFilter_test_false (m hk : Nat) (key : Bytes) (hh : 0 < hk) :
    (newBloomFilter m hk).test key = false := by
  unfold BloomFilter.test newBloomFilter
  cases hk with
  | zero => omega
  | succ n =>
    rw [List.range_succ_eq_map]
    simp

/-- No false negatives: a key just added passes the membership test. -/
theorem bloom_add_test_self (bf : BloomFilter) (key : Bytes) :
    (bf.add key).test key = true := by
  unfold BloomFilter.test BloomFilter.add
  rw [List.all_eq_true]
  intro i hi
  simp only [List.contains, List.elem_eq_mem, decide_eq_true_eq]
  exact List.mem_append_left _ (List.mem_map_of_mem _ hi)

/-- Every cell of the k-columns of a fresh sketch, after j unit adds of the
key, holds j mod 2^64; the hot map holds (k, v) exactly once the count has
reached the threshold on some earlier add. State after j + 1 RecordKey calls
on a fresh detector (the first call only feeds the filter). -/
theorem recordKeyN_fresh (w d T : Nat) (k : Bytes) (v : ByteView) (hd : 0 < d)
    (hT : T < 2 ^ 64) :
    ∀ j, j ≤ T + 1 →
      (recordKeyN (newHotKeyDetectorW w d T) k v (j + 1)).bf =
          (newBloomFilter 1000000 5).add k ∧
        (recordKeyN (newHotKeyDetectorW w d T) k v (j + 1)).cms.width = w ∧
        (recordKeyN (newHotKeyDetectorW w d T) k v (j + 1)).cms.depth = d ∧
        (∀ i, i < d →
          (recordKeyN (newHotKeyDetectorW w d T) k v (j + 1)).cms.table i (cmsIdx w i k) =
            j % 2 ^ 64) ∧
        (recordKeyN (newHotKeyDetectorW w d T) k v (j + 1)).hotKeys =
          (if T ≤ j ∧ 1 ≤ j then [(k, v)] else []) ∧
        (recordKeyN (newHotKeyDetectorW w d T) k v (j + 1)).threshold = T := by
  intro j
  induction j with
  | zero =>
    intro _
    have h1 : recordKeyN (newHotKeyDetectorW w d T) k v 1 =
        (newHotKeyDetectorW w d T).recordKey k v := rfl
    have htest : (newHotKeyDetectorW w d T).bf.test k = false :=
      newBloomFilter_test_false 1000000 5 k (by norm_num)
    have h2 : (newHotKeyDetectorW w d T).recordKey k v =
        { newHotKeyDetectorW w d T with bf := (newHotKeyDetectorW w d T).bf.add k } := by
      unfold HotKeyDetector.recordKey
      rw [if_pos htest]
    rw [h1, h2]
    refine ⟨rfl, rfl, rfl, fun i hi => rfl, ?_, rfl⟩
    rw [if_neg (show ¬ (T ≤ 0 ∧ 1 ≤ 0) by omega)]
    rfl
  | succ j ih =>
    intro hj
    obtain ⟨hbf, hwid, hdep, hcells, hhot, hth⟩ := ih (by omega)
    set s := recordKeyN (newHotKeyDetectorW w d T) k v (j + 1) with hs
    have hstep : recordKeyN (newHotKeyDetectorW w d T) k v (j + 1 + 1) =
        s.recordKey k v := recordKeyN_succ _ _ _ _
    have htest : s.bf.test k = true := by
      rw [hbf]
      exact bloom_add_test_self _ k
    have htest' : ¬ s.bf.test k = false := by
      rw [htest]
      simp
    -- the sketch after this call's add
    have hcells1 : ∀ i, i < d → (s.cms.add k 1).table i (cmsIdx w i k) = (j + 1) % 2 ^ 64 := by
      intro i hi
      have hcond : i < s.cms.depth ∧ cmsIdx w i k = cmsIdx s.cms.width i k := by
        rw [hdep, hwid]
        exact ⟨hi, rfl⟩
      have hgoal : (s.cms.add k 1).table i (cmsIdx w i k) =
          if i < s.cms.depth ∧ cmsIdx w i k = cmsIdx s.cms.width i k then
            (s.cms.table i (cmsIdx w i k) + 1) % 2 ^ 64
          else s.cms.table i (cmsIdx w i k) := rfl
      rw [hgoal, if_pos hcond, hcells i hi, Nat.mod_add_mod]
    have hcount : (s.cms.add k 1).count k = (j + 1) % 2 ^ 64 := by
      unfold CountMinSketch.count
      have hd1 : (s.cms.add k 1).depth = d := hdep
      have hw1 : (s.cms.add k 1).width = w := hwid
      rw [hd1, hw1]
      rw [foldl_min_const (fun i => (s.cms.add k 1).table i (cmsIdx w i k)) (List.range d)
        (2 ^ 64 - 1) ((j + 1) % 2 ^ 64)
        (fun i hi => hcells1 i (List.mem_range.mp hi))
        (by simpa using List.range_eq_nil.not.mpr (by omega))]
      have : (j + 1) % 2 ^ 64 ≤ 2 ^ 64 - 1 := by
        have := Nat.mod_lt (j + 1) (show 0 < 2 ^ 64 by norm_num)
        omega
      omega
    by_cases hpromo : T ≤ (j + 1) % 2 ^ 64
    · have h2 : s.recordKey k v =
          { s with
            cms := s.cms.add k 1,
            hotKeys := (k, v) :: eraseKey s.hotKeys k } := by
        unfold HotKeyDetector.recordKey
        rw [if_neg htest', if_pos (by rw [hth, hcount]; exact hpromo)]
      rw [hstep, h2]
      refine ⟨hbf, hwid, hdep, hcells1, ?_, hth⟩
      have herase : eraseKey s.hotKeys k = [] := by
        rw [hhot]
        by_cases hc : T ≤ j ∧ 1 ≤ j
        · rw [if_pos hc]
          simp [eraseKey]
        · rw [if_neg hc]
          rfl
      rw [herase]
      have hcond2 : T ≤ j + 1 ∧ 1 ≤ j + 1 := by
        constructor
        · calc T ≤ (j + 1) % 2 ^ 64 := hpromo
            _ ≤ j + 1 := Nat.mod_le _ _
        · omega
      rw [if_pos hcond2]
    · have h2 : s.recordKey k v = { s with cms := s.cms.add k 1 } := by
        unfold HotKeyDetector.recordKey
        rw [if_neg htest', if_neg (by rw [hth, hcount]; exact hpromo)]
      rw [hstep, h2]
      refine ⟨hbf, hwid, hdep, hcells1, ?_, hth⟩
      show s.hotKeys = _
      rw [hhot]
      by_cases hwrap : j + 1 < 2 ^ 64
      · -- no wrap: the count is j + 1, so T ≤ j + 1 fails
        rw [Nat.mod_eq_of_lt hwrap] at hpromo
        rw [if_neg (by omega), if_neg (by omega)]
      · -- j + 1 = 2 ^ 64 forces T = 2 ^ 64 - 1 = j, already promoted
        have hje : j + 1 = 2 ^ 64 := by omega
        have hTj : T = j := by omega
        rw [if_pos ⟨by omega, by omega⟩, if_pos ⟨by omega, by omega⟩]

/-- Claim C3: on a fresh detector with threshold T, calling RecordKey(k, v)
T + 2 times promotes k: GetHot(k) returns (v, true) (GetHot does not modify
the detector, so every subsequent invocation returns the same). On a fresh
detector with T > 1, two RecordKey(q, w) calls leave GetHot(q) reporting
false: the first call only inserts q into the filter without touching the
sketch, and the single sketch add reaches count 1 < T. -/
theorem hotkey_promotion (T : Nat) (k q : Bytes) (v w : ByteView)
    (hT : T < 2 ^ 64) (hT1 : 1 < T) :
    (recordKeyN (newHotKeyDetector T) k v (T + 2)).getHot k = (v, true) ∧
      ((recordKeyN (newHotKeyDetector T) q w 2).getHot q).2 = false := by
  have hdet : newHotKeyDetector T = newHotKeyDetectorW 2719 1 T := by
    unfold newHotKeyDetector
    rw [cmsWidthOf_default, cmsDepthOf_default]
  rw [hdet]
  constructor
  · obtain ⟨_, _, _, _, hhot, _⟩ :=
      recordKeyN_fresh 2719 1 T k v (by norm_num) hT (T + 1) le_rfl
    have he : T + 1 + 1 = T + 2 := rfl
    rw [he] at hhot
    unfold HotKeyDetector.getHot
    rw [hhot, if_pos ⟨by omega, by omega⟩]
    simp [lookupKey]
  · obtain ⟨_, _, _, _, hhot, _⟩ :=
      recordKeyN_fresh 2719 1 T q w (by norm_num) hT 1 (by omega)
    unfold HotKeyDetector.getHot
    rw [hhot, if_neg (by omega)]
    simp [lookupKey]

theorem hotkey_promotion_witness :
    ((3 : Nat) < 2 ^ 64 ∧ (1 : Nat) < 3) ∧
      ((recordKeyN (newHotKeyDetector 3) [107] ⟨[86]⟩ 5).getHot [107] = (⟨[86]⟩, true) ∧
        ((recordKeyN (newHotKeyDetector 3) [113] ⟨[87]⟩ 2).getHot [113]).2 = false) :=
  ⟨⟨by decide, by decide⟩,
    hotkey_promotion 3 [107] [113] ⟨[86]⟩ ⟨[87]⟩ (by decide) (by decide)⟩

/-! ## Package consistenthash (claim C5) -/

namespace ConsistentHash

/-- strconv.Itoa(i) as a byte string (ASCII decimal digits). -/
def itoa (n : Nat) : Bytes := (Nat.toDigits 10 n).map Char.toNat

/-- consistenthash.Map: the hash function, the virtual-node multiplier, the
sorted hash ring and the hash -> peer map (an association list with
overwrite-on-insert). -/
structure Map where
  hash : Bytes → Nat
  replicas : Nat
  keys : List Nat
  hashMap : List (Nat × Bytes)

/-- consistenthash.New (the nil-hash default CRC32 is out of scope: the
claims quantify over the ring's hash function). -/
def new (replicas : Nat) (hash : Bytes → Nat) : Map :=
  { hash := hash, replicas := replicas, keys := [], hashMap := [] }

/-- Go map assignment m.hashMap[h] = p. -/
def mapInsert (l : List (Nat × Bytes)) (h : Nat) (p : Bytes) : List (Nat × Bytes) :=
  (h, p) :: eraseKey l h

/-- The body of Add's inner loop for one virtual node i of one peer. -/
def addStep (peer : Bytes) (acc : Map) (i : Nat) : Map :=
  { acc with
    keys := acc.keys ++ [acc.hash (itoa i ++ peer)],
    hashMap := mapInsert acc.hashMap (acc.hash (itoa i ++ peer)) peer }

/-- Add's inner loop: all virtual nodes of one peer. -/
def Map.addOne (m : Map) (peer : Bytes) : Map :=
  (List.range m.replicas).foldl (addStep peer) m

/-- consistenthash.Map.Add: insert every peer's virtual nodes, then sort the
ring ascending (sort.Ints; the ascending reordering of a multiset of ints is
unique, so insertion sort models it exactly). -/
def Map.add (m : Map) (peers : List Bytes) : Map :=
  let m1 := peers.foldl Map.addOne m
  { m1 with keys := m1.keys.insertionSort (fun a b => a ≤ b) }

/-- sort.Search on the sorted ring: the smallest index whose hash is at
least h, or len(keys) if there is none (on a sorted list the first such
index is the binary-search result). -/
def sortSearch (keys : List Nat) (h : Nat) : Nat :=
  keys.findIdx (fun x => h ≤ x)

/-- consistenthash.Map.Get. -/
def Map.get (m : Map) (key : Bytes) : Bytes :=
  if m.keys = [] then []
  else
    (lookupKey m.hashMap
        (m.keys.getD (sortSearch m.keys (m.hash key) % m.keys.length) 0)).getD []

/-- GetN's collection loop: walk the pending ring positions in order,
skipping peers already collected, until n peers are collected or the ring is
exhausted. -/
def collectN (n : Nat) : List Bytes → List Bytes → List Bytes
  | acc, [] => acc
  | acc, p :: ps =>
    if acc.length < n then
      if p ∈ acc then collectN n acc ps else collectN n (acc ++ [p]) ps
    else acc

/-- consistenthash.Map.GetN: cap n at len(hashMap), find the start position,
then walk the ring once collecting distinct peers. The walk over positions
(idx + i) mod len for i < len is the rotation of the sorted ring starting at
idx mod len. -/
def Map.getN (m : Map) (key : Bytes) (n : Nat) : List Bytes :=
  if m.keys = [] ∨ n = 0 then []
  else
    let nn := min n m.hashMap.length
    let idx := sortSearch m.keys (m.hash key)
    collectN nn []
      ((m.keys.rotate (idx % m.keys.length)).map (fun h => (lookupKey m.hashMap h).getD []))

/-- Claim C5 counterexample: with a hash that collides (constantly 0), two
distinct peers are added, n = 2 does not exceed the number of distinct added
peers, yet GetN returns a single peer — the later peer's virtual nodes
overwrite the earlier peer's in the hash map. -/
theorem ring_getN_collision_cex :
    (([[65], [66]] : List Bytes).Nodup ∧ ([[65], [66]] : List Bytes).length = 2) ∧
      ((Map.add (new 1 (fun _ => 0)) [[65], [66]]).getN [107] 2).length = 1 := by
  constructor
  · constructor <;> decide
  · decide

/-- The virtual nodes Add(peers...) inserts, in insertion order. -/
def vnodes (hash : Bytes → Nat) (replicas : Nat) : List Bytes → List (Nat × Bytes)
  | [] => []
  | p :: ps =>
    (List.range replicas).map (fun i => (hash (itoa i ++ p), p)) ++ vnodes hash replicas ps

/-- Insert a list of virtual nodes into a Go map, in order. -/
def insertAll (l : List (Nat × Bytes)) (m0 : List (Nat × Bytes)) : List (Nat × Bytes) :=
  l.foldl (fun acc e => mapInsert acc e.1 e.2) m0

theorem foldl_proj {α β : Type} (g : Map → β) (f : Map → α → Map)
    (hf : ∀ m a, g (f m a) = g m) :
    ∀ (l : List α) (m : Map), g (l.foldl f m) = g m := by
  intro l
  induction l with
  | nil => intro m; rfl
  | cons a l ih =>
    intro m
    rw [List.foldl_cons, ih, hf]

theorem addOne_hash (m : Map) (p : Bytes) : (m.addOne p).hash = m.hash :=
  foldl_proj Map.hash (addStep p) (fun _ _ => rfl) _ m

theorem addOne_replicas (m : Map) (p : Bytes) : (m.addOne p).replicas = m.replicas :=
  foldl_proj Map.replicas (addStep p) (fun _ _ => rfl) _ m

theorem foldl_addStep_keys (p : Bytes) :
    ∀ (is : List Nat) (m : Map),
      (is.foldl (addStep p) m).keys = m.keys ++ is.map (fun i => m.hash (itoa i ++ p)) := by
  intro is
  induction is with
  | nil => intro m; simp
  | cons i is ih =>
    intro m
    rw [List.foldl_cons, ih]
    show (addStep p m i).keys ++ is.map (fun j => (addStep p m i).hash (itoa j ++ p)) = _
    simp [addStep]

theorem foldl_addStep_hashMap (p : Bytes) :
    ∀ (is : List Nat) (m : Map),
      (is.foldl (addStep p) m).hashMap =
        insertAll (is.map (fun i => (m.hash (itoa i ++ p), p))) m.hashMap := by
  intro is
  induction is with
  | nil => intro m; rfl
  | cons i is ih =>
    intro m
    rw [List.foldl_cons, ih]
    show insertAll (is.map (fun j => ((addStep p m i).hash (itoa j ++ p), p)))
        (addStep p m i).hashMap = _
    simp only [List.map_cons, insertAll, List.foldl_cons]
    rfl

theorem foldl_addOne_keys :
    ∀ (peers : List Bytes) (m : Map),
      (peers.foldl Map.addOne m).keys =
        m.keys ++ (vnodes m.hash m.replicas peers).map Prod.fst := by
  intro peers
  induction peers with
  | nil => intro m; simp [vnodes]
  | cons p ps ih =>
    intro m
    rw [List.foldl_cons, ih, addOne_hash, addOne_replicas]
    show (m.addOne p).keys ++ _ = _
    unfold Map.addOne
    rw [foldl_addStep_keys]
    simp [vnodes, List.map_map, Function.comp]

theorem foldl_addOne_hashMap :
    ∀ (peers : List Bytes) (m : Map),
      (peers.foldl Map.addOne m).hashMap =
        insertAll (vnodes m.hash m.replicas peers) m.hashMap := by
  intro peers
  induction peers with
  | nil => intro m; rfl
  | cons p ps ih =>
    intro m
    rw [List.foldl_cons, ih, addOne_hash, addOne_replicas]
    show insertAll (vnodes m.hash m.replicas ps) (m.addOne p).hashMap = _
    unfold Map.addOne
    rw [foldl_addStep_hashMap]
    show insertAll _ (insertAll _ _) = _
    unfold insertAll
    rw [vnodes, ← List.foldl_append]

theorem lookupKey_mapInsert (mm : List (Nat × Bytes)) (h : Nat) (p : Bytes) (q : Nat) :
    lookupKey (mapInsert mm h p) q = if h = q then some p else lookupKey mm q := by
  unfold mapInsert
  rw [lookupKey_cons]
  by_cases hq : h = q
  · rw [if_pos hq, if_pos hq]
  · rw [if_neg hq, if_neg hq]
    exact lookupKey_eraseKey_ne mm (fun he => hq he.symm)

theorem insertAll_lookup_of_not_mem (l : List (Nat × Bytes)) :
    ∀ (m0 : List (Nat × Bytes)) (h : Nat), h ∉ l.map Prod.fst →
      lookupKey (insertAll l m0) h = lookupKey m0 h := by
  induction l with
  | nil => intro m0 h _; rfl
  | cons e t ih =>
    intro m0 h hfree
    have h1 : h ∉ t.map Prod.fst := fun hm => hfree (List.mem_cons_of_mem _ hm)
    have h2 : e.1 ≠ h := fun he => hfree (List.mem_cons.mpr (Or.inl he.symm))
    show lookupKey (insertAll t (mapInsert m0 e.1 e.2)) h = _
    rw [ih _ _ h1, lookupKey_mapInsert, if_neg h2]

theorem insertAll_lookup_mem (l : List (Nat × Bytes)) (hnd : (l.map Prod.fst).Nodup) :
    ∀ (m0 : List (Nat × Bytes)) (e : Nat × Bytes), e ∈ l →
      lookupKey (insertAll l m0) e.1 = some e.2 := by
  induction l with
  | nil => intro m0 e he; simp at he
  | cons x t ih =>
    intro m0 e he
    rw [List.map_cons, List.nodup_cons] at hnd
    rcases List.mem_cons.mp he with rfl | hm
    · show lookupKey (insertAll t (mapInsert m0 e.1 e.2)) e.1 = some e.2
      rw [insertAll_lookup_of_not_mem _ _ _ hnd.1, lookupKey_mapInsert, if_pos rfl]
    · exact ih hnd.2 _ e hm

theorem insertAll_length (l : List (Nat × Bytes)) (hnd : (l.map Prod.fst).Nodup) :
    ∀ (m0 : List (Nat × Bytes)), (∀ h ∈ l.map Prod.fst, lookupKey m0 h = none) →
      (insertAll l m0).length = m0.length + l.length := by
  induction l with
  | nil => intro m0 _; rfl
  | cons x t ih =>
    intro m0 hf
    rw [List.map_cons, List.nodup_cons] at hnd
    have hx : lookupKey m0 x.1 = none := hf _ (List.mem_cons_self _ _)
    have hfree : ∀ h ∈ t.map Prod.fst, lookupKey (mapInsert m0 x.1 x.2) h = none := by
      intro h hm
      rw [lookupKey_mapInsert, if_neg (fun he : x.1 = h => hnd.1 (by rw [he]; exact hm))]
      exact hf _ (List.mem_cons_of_mem _ hm)
    show (insertAll t (mapInsert m0 x.1 x.2)).length = m0.length + (x :: t).length
    rw [ih hnd.2 _ hfree]
    unfold mapInsert
    rw [List.length_cons, eraseKey_of_lookup_none hx, List.length_cons]
    omega

theorem vnodes_length (hash : Bytes → Nat) (replicas : Nat) (peers : List Bytes) :
    (vnodes hash replicas peers).length = peers.length * replicas := by
  induction peers with
  | nil => simp [vnodes]
  | cons p ps ih =>
    rw [vnodes, List.length_append, List.length_map, List.length_range, ih,
      List.length_cons]
    ring

theorem mem_vnodes_snd {hash : Bytes → Nat} {replicas : Nat} {peers : List Bytes}
    {e : Nat × Bytes} (he : e ∈ vnodes hash replicas peers) : e.2 ∈ peers := by
  induction peers with
  | nil => simp [vnodes] at he
  | cons p ps ih =>
    rw [vnodes] at he
    rcases List.mem_append.mp he with hm | hm
    · obtain ⟨i, _, rfl⟩ := List.mem_map.mp hm
      exact List.mem_cons_self _ _
    · exact List.mem_cons_of_mem _ (ih hm)

theorem mem_vnodes_of_mem_peers (hash : Bytes → Nat) (replicas : Nat)
    (hrep : 0 < replicas) {peers : List Bytes} {p : Bytes} (hp : p ∈ peers) :
    (hash (itoa 0 ++ p), p) ∈ vnodes hash replicas peers := by
  induction peers with
  | nil => simp at hp
  | cons q ps ih =>
    rw [vnodes]
    rcases List.mem_cons.mp hp with rfl | hm
    · exact List.mem_append_left _ (List.mem_map.mpr ⟨0, List.mem_range.mpr hrep, rfl⟩)
    · exact List.mem_append_right _ (ih hm)

theorem toFinset_map_const {α β : Type} [DecidableEq β] (l : List α) (b : β)
    (hl : l ≠ []) : (l.map (fun _ => b)).toFinset = {b} := by
  induction l with
  | nil => exact absurd rfl hl
  | cons x xs ih =>
    by_cases hxs : xs = []
    · subst hxs; simp
    · rw [List.map_cons, List.toFinset_cons, ih hxs]
      simp

theorem vnodes_snd_toFinset (hash : Bytes → Nat) (replicas : Nat)
    (hrep : 0 < replicas) (peers : List Bytes) :
    ((vnodes hash replicas peers).map Prod.snd).toFinset = peers.toFinset := by
  induction peers with
  | nil => rfl
  | cons p ps ih =>
    rw [vnodes, List.map_append, List.toFinset_append, ih]
    have h1 : ((List.range replicas).map (fun i => (hash (itoa i ++ p), p))).map Prod.snd =
        (List.range replicas).map (fun _ => p) := by
      rw [List.map_map]
      rfl
    rw [h1, toFinset_map_const _ _
      (fun h => absurd (List.range_eq_nil.mp h) (by omega))]
    rw [List.toFinset_cons, Finset.insert_eq]

theorem add_hash (m : Map) (peers : List Bytes) : (m.add peers).hash = m.hash := by
  show (peers.foldl Map.addOne m).hash = m.hash
  exact foldl_proj Map.hash Map.addOne addOne_hash peers m

theorem add_keys (m : Map) (peers : List Bytes) :
    (m.add peers).keys =
      (m.keys ++ (vnodes m.hash m.replicas peers).map Prod.fst).insertionSort
        (fun a b => a ≤ b) := by
  show (peers.foldl Map.addOne m).keys.insertionSort (fun a b => a ≤ b) = _
  rw [foldl_addOne_keys]

theorem add_hashMap (m : Map) (peers : List Bytes) :
    (m.add peers).hashMap = insertAll (vnodes m.hash m.replicas peers) m.hashMap := by
  show (peers.foldl Map.addOne m).hashMap = _
  exact foldl_addOne_hashMap peers m

/-- The collection loop gathers min n (number of distinct pending peers not
yet collected) peers: they are distinct and drawn from acc and the pending
list. -/
theorem collectN_spec (n : Nat) :
    ∀ (pend : List Bytes) (acc : List Bytes), acc.Nodup → acc.length ≤ n →
      (collectN n acc pend).Nodup ∧
        (collectN n acc pend).length =
          min n (acc.length + (pend.toFinset \ acc.toFinset).card) ∧
        (∀ x ∈ collectN n acc pend, x ∈ acc ∨ x ∈ pend) := by
  intro pend
  induction pend with
  | nil =>
    intro acc hnd hlen
    refine ⟨hnd, ?_, fun x hx => Or.inl hx⟩
    show acc.length = min n (acc.length + ((∅ : Finset Bytes) \ acc.toFinset).card)
    rw [Finset.empty_sdiff, Finset.card_empty, Nat.add_zero, min_eq_right hlen]
  | cons p ps ih =>
    intro acc hnd hlen
    by_cases hl : acc.length < n
    · by_cases hp : p ∈ acc
      · have hun : collectN n acc (p :: ps) =
            if acc.length < n then
              if p ∈ acc then collectN n acc ps else collectN n (acc ++ [p]) ps
            else acc := rfl
        have heq : collectN n acc (p :: ps) = collectN n acc ps := by
          rw [hun, if_pos hl, if_pos hp]
        obtain ⟨h1, h2, h3⟩ := ih acc hnd hlen
        rw [heq]
        refine ⟨h1, ?_, fun x hx => (h3 x hx).imp id (List.mem_cons_of_mem _)⟩
        rw [h2]
        have hfs : (p :: ps).toFinset \ acc.toFinset = ps.toFinset \ acc.toFinset := by
          ext y
          simp only [List.toFinset_cons, Finset.mem_sdiff, Finset.mem_insert,
            List.mem_toFinset]
          constructor
          · rintro ⟨rfl | hy, hna⟩
            · exact absurd hp hna
            · exact ⟨hy, hna⟩
          · rintro ⟨hy, hna⟩
            exact ⟨Or.inr hy, hna⟩
        rw [hfs]
      · have hun : collectN n acc (p :: ps) =
            if acc.length < n then
              if p ∈ acc then collectN n acc ps else collectN n (acc ++ [p]) ps
            else acc := rfl
        have heq : collectN n acc (p :: ps) = collectN n (acc ++ [p]) ps := by
          rw [hun, if_pos hl, if_neg hp]
        have hnd1 : (acc ++ [p]).Nodup := by
          refine List.Nodup.append hnd (by simp) ?_
          intro a ha hb
          rw [List.mem_singleton] at hb
          subst hb
          exact hp ha
        have hlen1 : (acc ++ [p]).length ≤ n := by
          rw [List.length_append]
          simp only [List.length_singleton]
          omega
        obtain ⟨h1, h2, h3⟩ := ih (acc ++ [p]) hnd1 hlen1
        rw [heq]
        refine ⟨h1, ?_, ?_⟩
        · rw [h2, List.length_append]
          have hpA : p ∉ acc.toFinset := by simpa using hp
          have hf : (acc ++ [p]).toFinset = insert p acc.toFinset := by
            ext y
            simp only [List.mem_toFinset, List.mem_append, List.mem_singleton,
              Finset.mem_insert]
            tauto
          have e1 : insert p ps.toFinset \ acc.toFinset =
              insert p (ps.toFinset \ acc.toFinset) := by
            ext y
            simp only [Finset.mem_sdiff, Finset.mem_insert]
            constructor
            · rintro ⟨rfl | hy, hna⟩
              · exact Or.inl rfl
              · exact Or.inr ⟨hy, hna⟩
            · rintro (rfl | ⟨hy, hna⟩)
              · exact ⟨Or.inl rfl, hpA ∘ List.mem_toFinset.mpr ∘ List.mem_toFinset.mp⟩
              · exact ⟨Or.inr hy, hna⟩
          have e2 : ps.toFinset \ (insert p acc.toFinset) =
              (ps.toFinset \ acc.toFinset).erase p := by
            ext y
            simp only [Finset.mem_sdiff, Finset.mem_insert, Finset.mem_erase]
            tauto
          have hcard : (insert p ps.toFinset \ acc.toFinset).card =
              1 + (ps.toFinset \ insert p acc.toFinset).card := by
            rw [e1, e2]
            by_cases hpS : p ∈ ps.toFinset \ acc.toFinset
            · rw [Finset.insert_eq_self.mpr hpS, Finset.card_erase_of_mem hpS]
              have hc0 : 0 < (ps.toFinset \ acc.toFinset).card :=
                Finset.card_pos.mpr ⟨p, hpS⟩
              omega
            · rw [Finset.card_insert_of_not_mem hpS, Finset.erase_eq_of_not_mem hpS]
              omega
          rw [List.toFinset_cons, hcard, hf]
          simp only [List.length_singleton]
          congr 1
          omega
        · intro x hx
          rcases h3 x hx with hxa | hxp
          · rcases List.mem_append.mp hxa with hh | hh
            · exact Or.inl hh
            · rw [List.mem_singleton] at hh
              subst hh
              exact Or.inr (List.mem_cons_self _ _)
          · exact Or.inr (List.mem_cons_of_mem _ hxp)
    · have hun : collectN n acc (p :: ps) =
          if acc.length < n then
            if p ∈ acc then collectN n acc ps else collectN n (acc ++ [p]) ps
          else acc := rfl
      have heq : collectN n acc (p :: ps) = acc := by
        rw [hun, if_neg hl]
      rw [heq]
      refine ⟨hnd, ?_, fun x hx => Or.inl hx⟩
      have hle : acc.length = n := by omega
      rw [hle]
      exact (min_eq_left (by omega)).symm

/-- Claim C5 (amended): provided the virtual-node hashes do not collide —
which holds for CRC32 on typical peer sets but not for every hash — GetN on
a ring built by Add from distinct peers returns, for every 0 < n, exactly
min n |peers| distinct peers, all of them added: n ≤ |peers| gives exactly
n, and larger n is capped by the ring walk at the number of distinct
peers. -/
theorem ring_getN_distinct (hash : Bytes → Nat) (replicas : Nat) (peers : List Bytes)
    (key : Bytes) (n : Nat)
    (hinj : ((vnodes hash replicas peers).map Prod.fst).Nodup)
    (hrep : 0 < replicas) (hne : peers ≠ []) (hpnd : peers.Nodup)
    (hn0 : 0 < n) :
    ((Map.add (new replicas hash) peers).getN key n).length = min n peers.length ∧
      ((Map.add (new replicas hash) peers).getN key n).Nodup ∧
      ∀ p ∈ (Map.add (new replicas hash) peers).getN key n, p ∈ peers := by
  have hkeys : (Map.add (new replicas hash) peers).keys =
      ((vnodes hash replicas peers).map Prod.fst).insertionSort (fun a b => a ≤ b) := by
    have h := add_keys (new replicas hash) peers
    simpa [new] using h
  have hmap : (Map.add (new replicas hash) peers).hashMap =
      insertAll (vnodes hash replicas peers) [] := by
    have h := add_hashMap (new replicas hash) peers
    simpa [new] using h
  have hkperm : ((Map.add (new replicas hash) peers).keys).Perm
      ((vnodes hash replicas peers).map Prod.fst) := by
    rw [hkeys]
    exact List.perm_insertionSort _ _
  have hvlen : (vnodes hash replicas peers).length = peers.length * replicas :=
    vnodes_length hash replicas peers
  have hplen : 0 < peers.length := List.length_pos.mpr hne
  have hkne : (Map.add (new replicas hash) peers).keys ≠ [] := by
    intro h0
    have := hkperm.length_eq
    rw [h0] at this
    simp only [List.length_nil, List.length_map] at this
    rw [hvlen] at this
    have : 0 < peers.length * replicas := Nat.mul_pos hplen hrep
    omega
  have htotal : (Map.add (new replicas hash) peers).hashMap.length =
      peers.length * replicas := by
    rw [hmap, insertAll_length _ hinj [] (fun h _ => rfl), hvlen]
    simp
  have hgetn : (Map.add (new replicas hash) peers).getN key n =
      collectN (min n (Map.add (new replicas hash) peers).hashMap.length) []
        (((Map.add (new replicas hash) peers).keys.rotate
            (sortSearch (Map.add (new replicas hash) peers).keys
                ((Map.add (new replicas hash) peers).hash key) %
              (Map.add (new replicas hash) peers).keys.length)).map
          (fun h => (lookupKey (Map.add (new replicas hash) peers).hashMap h).getD [])) := by
    unfold Map.getN
    rw [if_neg (by push_neg; exact ⟨hkne, by omega⟩)]
  -- the swept peer list is a permutation of the peers, each with
  -- `replicas` occurrences
  have hrot : (((Map.add (new replicas hash) peers).keys.rotate
      (sortSearch (Map.add (new replicas hash) peers).keys
          ((Map.add (new replicas hash) peers).hash key) %
        (Map.add (new replicas hash) peers).keys.length)).Perm
      ((vnodes hash replicas peers).map Prod.fst)) :=
    (List.rotate_perm _ _).trans hkperm
  have hmapped : (((Map.add (new replicas hash) peers).keys.rotate
      (sortSearch (Map.add (new replicas hash) peers).keys
          ((Map.add (new replicas hash) peers).hash key) %
        (Map.add (new replicas hash) peers).keys.length)).map
      (fun h => (lookupKey (Map.add (new replicas hash) peers).hashMap h).getD [])).Perm
      ((vnodes hash replicas peers).map Prod.snd) := by
    have h1 := hrot.map
      (fun h => (lookupKey (Map.add (new replicas hash) peers).hashMap h).getD [])
    refine h1.trans ?_
    rw [List.map_map]
    have h2 : ∀ e ∈ vnodes hash replicas peers,
        ((fun h => (lookupKey (Map.add (new replicas hash) peers).hashMap h).getD []) ∘
          Prod.fst) e = Prod.snd e := by
      intro e he
      show (lookupKey (Map.add (new replicas hash) peers).hashMap e.1).getD [] = e.2
      rw [hmap, insertAll_lookup_mem _ hinj [] e he]
      rfl
    rw [List.map_congr_left h2]
  obtain ⟨hnd, hlen, hmem⟩ := collectN_spec
    (min n (Map.add (new replicas hash) peers).hashMap.length)
    (((Map.add (new replicas hash) peers).keys.rotate
        (sortSearch (Map.add (new replicas hash) peers).keys
            ((Map.add (new replicas hash) peers).hash key) %
          (Map.add (new replicas hash) peers).keys.length)).map
      (fun h => (lookupKey (Map.add (new replicas hash) peers).hashMap h).getD []))
    [] List.nodup_nil (Nat.zero_le _)
  have hfs : ((((Map.add (new replicas hash) peers).keys.rotate
      (sortSearch (Map.add (new replicas hash) peers).keys
          ((Map.add (new replicas hash) peers).hash key) %
        (Map.add (new replicas hash) peers).keys.length)).map
      (fun h => (lookupKey (Map.add (new replicas hash) peers).hashMap h).getD
        [])).toFinset) = peers.toFinset := by
    rw [List.toFinset_eq_of_perm _ _ hmapped]
    exact vnodes_snd_toFinset hash replicas hrep peers
  have hcard : peers.toFinset.card = peers.length :=
    List.toFinset_card_of_nodup hpnd
  refine ⟨?_, by rw [hgetn]; exact hnd, ?_⟩
  · rw [hgetn, hlen]
    simp only [List.length_nil, List.toFinset_nil, Finset.sdiff_empty, Nat.zero_add]
    rw [hfs, hcard, htotal]
    have hLR : peers.length * 1 ≤ peers.length * replicas :=
      Nat.mul_le_mul_left _ hrep
    omega
  · intro p hp
    rw [hgetn] at hp
    rcases hmem p hp with h0 | hS
    · simp at h0
    · have : p ∈ (vnodes hash replicas peers).map Prod.snd := hmapped.mem_iff.mp hS
      obtain ⟨e, he, rfl⟩ := List.mem_map.mp this
      exact mem_vnodes_snd he

/-- A small injective hash for exercising the amended ring claim. -/
def encHash : Bytes → Nat := fun bs => bs.foldl (fun a b => a * 300 + b) 0

theorem ring_getN_distinct_witness :
    (((vnodes encHash 2 [[65], [66]]).map Prod.fst).Nodup ∧
        (0 : Nat) < 2 ∧ ([[65], [66]] : List Bytes) ≠ [] ∧
        ([[65], [66]] : List Bytes).Nodup ∧ (0 : Nat) < 2 ∧ (0 : Nat) < 5) ∧
      (((Map.add (new 2 encHash) [[65], [66]]).getN [107] 2).length = 2 ∧
        ((Map.add (new 2 encHash) [[65], [66]]).getN [107] 2).Nodup ∧
        ∀ p ∈ (Map.add (new 2 encHash) [[65], [66]]).getN [107] 2,
          p ∈ ([[65], [66]] : List Bytes)) ∧
      (((Map.add (new 2 encHash) [[65], [66]]).getN [107] 5).length = 2 ∧
        ((Map.add (new 2 encHash) [[65], [66]]).getN [107] 5).Nodup ∧
        ∀ p ∈ (Map.add (new 2 encHash) [[65], [66]]).getN [107] 5,
          p ∈ ([[65], [66]] : List Bytes)) :=
  ⟨⟨by decide, by decide, by decide, by decide, by decide, by decide⟩,
    ring_getN_distinct encHash 2 [[65], [66]] [107] 2 (by decide) (by decide)
      (by decide) (by decide) (by decide),
    ring_getN_distinct encHash 2 [[65], [66]] [107] 5 (by decide) (by decide)
      (by decide) (by decide) (by decide)⟩

end ConsistentHash

/-! ## Package singleflight (claim C2)

singleflight.Group.Do is concurrent code; it is modelled as a transition
system whose atomic steps are the mutex-protected sections of Do, the
execution of fn, and the wg.Wait wake-up:
* enterNew — lock; m[key] absent; create the call, insert it, unlock
  (the caller becomes the executor);
* enterJoin — lock; m[key] present; unlock; block in c.wg.Wait();
* complete — the executor's fn() returns; c.value, c.err = fn();
  c.wg.Done() (one atomic event: waiters read the result only after Done);
* removeReturn — lock; delete(m, key); unlock; return c.value, c.err;
* wake — a waiter's wg.Wait() returns; it reads and returns c.value, c.err.
Each thread is one Do(key, fn) caller; fn is modelled by the result it
would produce (fnRes). The call ledger and per-call execution counter are
history variables. -/

namespace Singleflight

/-- The (value, err) pair a Do call returns. -/
structure Res where
  value : Nat
  err : Option Nat
deriving Repr, DecidableEq

/-- singleflight.call, with history: the creating thread (its executor) and
how many times fn has run for it. -/
structure Call where
  key : Bytes
  owner : Nat
  res : Option Res
  execs : Nat
deriving Repr, DecidableEq

/-- Where one Do caller stands. -/
inductive Phase : Type
  | start : Phase
  | running (cid : Nat) : Phase
  | stored (cid : Nat) : Phase
  | waiting (cid : Nat) : Phase
  | finished (cid : Nat) (r : Res) : Phase
deriving Repr, DecidableEq

structure Thread where
  key : Bytes
  fnRes : Res
  phase : Phase
deriving Repr, DecidableEq

/-- The shared state: the callers, the ledger of all calls ever created
(cid = creation index), and the in-flight map g.m. -/
structure Sys where
  threads : Nat → Option Thread
  calls : Nat → Option Call
  nextCid : Nat
  inflight : List (Bytes × Nat)

/-- The initial state: a set of Do callers, none started. -/
def init (spec : Nat → Option (Bytes × Res)) : Sys :=
  { threads := fun t => (spec t).map (fun kf => ⟨kf.1, kf.2, .start⟩),
    calls := fun _ => none,
    nextCid := 0,
    inflight := [] }

/-- One atomic step of one caller. -/
inductive Step : Sys → Sys → Prop
  | enterNew (s : Sys) (t : Nat) (th : Thread)
      (hth : s.threads t = some th) (hph : th.phase = .start)
      (hm : lookupKey s.inflight th.key = none) :
      Step s
        { threads :=
            Function.update s.threads t (some { th with phase := .running s.nextCid }),
          calls := Function.update s.calls s.nextCid (some ⟨th.key, t, none, 0⟩),
          nextCid := s.nextCid + 1,
          inflight := (th.key, s.nextCid) :: s.inflight }
  | enterJoin (s : Sys) (t : Nat) (th : Thread) (cid : Nat)
      (hth : s.threads t = some th) (hph : th.phase = .start)
      (hm : lookupKey s.inflight th.key = some cid) :
      Step s
        { s with
          threads := Function.update s.threads t (some { th with phase := .waiting cid }) }
  | complete (s : Sys) (t : Nat) (th : Thread) (cid : Nat) (c : Call)
      (hth : s.threads t = some th) (hph : th.phase = .running cid)
      (hc : s.calls cid = some c) :
      Step s
        { s with
          threads := Function.update s.threads t (some { th with phase := .stored cid }),
          calls := Function.update s.calls cid
            (some { c with res := some th.fnRes, execs := c.execs + 1 }) }
  | removeReturn (s : Sys) (t : Nat) (th : Thread) (cid : Nat) (c : Call) (r : Res)
      (hth : s.threads t = some th) (hph : th.phase = .stored cid)
      (hc : s.calls cid = some c) (hr : c.res = some r) :
      Step s
        { s with
          threads :=
            Function.update s.threads t (some { th with phase := .finished cid r }),
          inflight := eraseKey s.inflight th.key }
  | wake (s : Sys) (t : Nat) (th : Thread) (cid : Nat) (c : Call) (r : Res)
      (hth : s.threads t = some th) (hph : th.phase = .waiting cid)
      (hc : s.calls cid = some c) (hr : c.res = some r) :
      Step s
        { s with
          threads :=
            Function.update s.threads t (some { th with phase := .finished cid r }) }

/-- States reachable from an initial caller population. -/
inductive Reachable (spec : Nat → Option (Bytes × Res)) : Sys → Prop
  | init : Reachable spec (init spec)
  | step {s s1 : Sys} : Reachable spec s → Step s s1 → Reachable spec s1

/-- The inductive invariant of the coalescer. -/
structure Inv (s : Sys) : Prop where
  callsBounded : ∀ cid, s.nextCid ≤ cid → s.calls cid = none
  inflightKeysNodup : (s.inflight.map Prod.fst).Nodup
  inflightOwnerLive : ∀ k cid, (k, cid) ∈ s.inflight →
    ∃ c, s.calls cid = some c ∧ c.key = k ∧
      ∃ th, s.threads c.owner = some th ∧ th.key = k ∧
        (th.phase = .running cid ∨ th.phase = .stored cid)
  ownerRun : ∀ t th cid, s.threads t = some th → th.phase = .running cid →
    ∃ c, s.calls cid = some c ∧ c.owner = t ∧ c.res = none ∧ c.execs = 0 ∧
      c.key = th.key ∧ lookupKey s.inflight th.key = some cid
  ownerStored : ∀ t th cid, s.threads t = some th → th.phase = .stored cid →
    ∃ c, s.calls cid = some c ∧ c.owner = t ∧ c.res = some th.fnRes ∧ c.execs = 1 ∧
      c.key = th.key ∧ lookupKey s.inflight th.key = some cid
  waiterOk : ∀ t th cid, s.threads t = some th → th.phase = .waiting cid →
    ∃ c, s.calls cid = some c ∧ c.key = th.key
  finishedOk : ∀ t th cid r, s.threads t = some th → th.phase = .finished cid r →
    ∃ c, s.calls cid = some c ∧ c.res = some r
  callRes : ∀ cid c r, s.calls cid = some c → c.res = some r →
    c.execs = 1 ∧ ∃ th, s.threads c.owner = some th ∧ th.fnRes = r
  callNoRes : ∀ cid c, s.calls cid = some c → c.res = none →
    c.execs = 0 ∧ ∃ th, s.threads c.owner = some th ∧ th.phase = .running cid

theorem init_phase_start (spec : Nat → Option (Bytes × Res)) (t : Nat) (th : Thread)
    (hth : (init spec).threads t = some th) : th.phase = Phase.start := by
  simp [init] at hth
  obtain ⟨kf, w, hs, hrec⟩ := hth
  rw [← hrec]

theorem inv_init (spec : Nat → Option (Bytes × Res)) : Inv (init spec) := by
  refine ⟨fun cid _ => rfl, List.nodup_nil, ?_, ?_, ?_, ?_, ?_, ?_, ?_⟩
  · intro k cid hmem
    simp [init] at hmem
  · intro t th cid hth hph
    rw [init_phase_start spec t th hth] at hph
    cases hph
  · intro t th cid hth hph
    rw [init_phase_start spec t th hth] at hph
    cases hph
  · intro t th cid hth hph
    rw [init_phase_start spec t th hth] at hph
    cases hph
  · intro t th cid r hth hph
    rw [init_phase_start spec t th hth] at hph
    cases hph
  · intro cid c r hc
    cases hc
  · intro cid c hc
    cases hc

theorem calls_lt {s : Sys} (hi : Inv s) {cid : Nat} {c : Call}
    (hc : s.calls cid = some c) : cid < s.nextCid := by
  by_contra hge
  rw [hi.callsBounded cid (by omega)] at hc
  cases hc


theorem inv_enterNew {s : Sys} (hi : Inv s) (t0 : Nat) (th0 : Thread)
    (hth0 : s.threads t0 = some th0) (hph0 : th0.phase = .start)
    (hm0 : lookupKey s.inflight th0.key = none) :
    Inv { threads :=
            Function.update s.threads t0 (some { th0 with phase := .running s.nextCid }),
          calls := Function.update s.calls s.nextCid (some ⟨th0.key, t0, none, 0⟩),
          nextCid := s.nextCid + 1,
          inflight := (th0.key, s.nextCid) :: s.inflight } := by
  have hko : ∀ {cid : Nat} {c : Call}, s.calls cid = some c → c.owner = t0 →
      ∀ {th1 : Thread}, s.threads c.owner = some th1 →
      (th1.phase = .running cid ∨ th1.phase = .stored cid) → False := by
    intro cid c _ ho th1 hth1 hph1
    rw [ho, hth0] at hth1
    injection hth1 with h1
    rw [← h1, hph0] at hph1
    rcases hph1 with h | h <;> simp at h
  refine ⟨?_, ?_, ?_, ?_, ?_, ?_, ?_, ?_, ?_⟩
  · intro cid hcid
    dsimp only at hcid ⊢
    rw [Function.update_noteq (by omega : cid ≠ s.nextCid)]
    exact hi.callsBounded cid (by omega)
  · dsimp only
    rw [List.map_cons]
    exact List.nodup_cons.mpr ⟨(lookupKey_eq_none _ _).mp hm0, hi.inflightKeysNodup⟩
  · intro k cid hmem
    dsimp only at hmem ⊢
    rcases List.mem_cons.mp hmem with hhd | htl
    · have hk : k = th0.key := congrArg Prod.fst hhd
      have hcid : cid = s.nextCid := congrArg Prod.snd hhd
      subst hk
      subst hcid
      refine ⟨⟨th0.key, t0, none, 0⟩, ?_, rfl,
        { th0 with phase := .running s.nextCid }, ?_, rfl, Or.inl rfl⟩
      · rw [Function.update_same]
      · rw [Function.update_same]
    · obtain ⟨c, hc, hkc, th1, hth1, hk1, hph1⟩ := hi.inflightOwnerLive k cid htl
      have hlt : cid < s.nextCid := calls_lt hi hc
      have hne : c.owner ≠ t0 := fun ho => hko hc ho hth1 hph1
      refine ⟨c, ?_, hkc, th1, ?_, hk1, hph1⟩
      · rw [Function.update_noteq (by omega : cid ≠ s.nextCid)]
        exact hc
      · rw [Function.update_noteq hne]
        exact hth1
  · intro t th cid hth hph
    dsimp only at hth ⊢
    by_cases ht : t = t0
    · subst ht
      rw [Function.update_same] at hth
      injection hth with h1
      rw [← h1] at hph
      dsimp only at hph
      injection hph with h2
      subst h2
      refine ⟨⟨th0.key, t, none, 0⟩, ?_, rfl, rfl, rfl, ?_, ?_⟩
      · rw [Function.update_same]
      · rw [← h1]
      · rw [← h1]
        dsimp only
        rw [lookupKey_cons]
        dsimp only
        rw [if_pos rfl]
    · rw [Function.update_noteq ht] at hth
      obtain ⟨c, hc, ho, hres, hex, hk, hl⟩ := hi.ownerRun t th cid hth hph
      have hlt : cid < s.nextCid := calls_lt hi hc
      have hkne : th0.key ≠ th.key := by
        intro he
        rw [← he, hm0] at hl
        cases hl
      refine ⟨c, ?_, ho, hres, hex, hk, ?_⟩
      · rw [Function.update_noteq (by omega : cid ≠ s.nextCid)]
        exact hc
      · rw [lookupKey_cons]
        dsimp only
        rw [if_neg hkne]
        exact hl
  · intro t th cid hth hph
    dsimp only at hth ⊢
    by_cases ht : t = t0
    · subst ht
      rw [Function.update_same] at hth
      injection hth with h1
      rw [← h1] at hph
      dsimp only at hph
      cases hph
    · rw [Function.update_noteq ht] at hth
      obtain ⟨c, hc, ho, hres, hex, hk, hl⟩ := hi.ownerStored t th cid hth hph
      have hlt : cid < s.nextCid := calls_lt hi hc
      have hkne : th0.key ≠ th.key := by
        intro he
        rw [← he, hm0] at hl
        cases hl
      refine ⟨c, ?_, ho, hres, hex, hk, ?_⟩
      · rw [Function.update_noteq (by omega : cid ≠ s.nextCid)]
        exact hc
      · rw [lookupKey_cons]
        dsimp only
        rw [if_neg hkne]
        exact hl
  · intro t th cid hth hph
    dsimp only at hth ⊢
    by_cases ht : t = t0
    · subst ht
      rw [Function.update_same] at hth
      injection hth with h1
      rw [← h1] at hph
      dsimp only at hph
      cases hph
    · rw [Function.update_noteq ht] at hth
      obtain ⟨c, hc, hkc⟩ := hi.waiterOk t th cid hth hph
      have hlt : cid < s.nextCid := calls_lt hi hc
      refine ⟨c, ?_, hkc⟩
      rw [Function.update_noteq (by omega : cid ≠ s.nextCid)]
      exact hc
  · intro t th cid r hth hph
    dsimp only at hth ⊢
    by_cases ht : t = t0
    · subst ht
      rw [Function.update_same] at hth
      injection hth with h1
      rw [← h1] at hph
      dsimp only at hph
      cases hph
    · rw [Function.update_noteq ht] at hth
      obtain ⟨c, hc, hres⟩ := hi.finishedOk t th cid r hth hph
      have hlt : cid < s.nextCid := calls_lt hi hc
      refine ⟨c, ?_, hres⟩
      rw [Function.update_noteq (by omega : cid ≠ s.nextCid)]
      exact hc
  · intro cid c r hc hres
    dsimp only at hc ⊢
    by_cases hcid : cid = s.nextCid
    · subst hcid
      rw [Function.update_same] at hc
      injection hc with h1
      rw [← h1] at hres
      cases hres
    · rw [Function.update_noteq hcid] at hc
      obtain ⟨hex, th1, hth1, hfn⟩ := hi.callRes cid c r hc hres
      refine ⟨hex, ?_⟩
      by_cases ho : c.owner = t0
      · refine ⟨{ th0 with phase := .running s.nextCid }, ?_, ?_⟩
        · rw [ho, Function.update_same]
        · rw [ho, hth0] at hth1
          injection hth1 with h1
          show th0.fnRes = r
          rw [h1]
          exact hfn
      · refine ⟨th1, ?_, hfn⟩
        rw [Function.update_noteq ho]
        exact hth1
  · intro cid c hc hres
    dsimp only at hc ⊢
    by_cases hcid : cid = s.nextCid
    · subst hcid
      rw [Function.update_same] at hc
      injection hc with h1
      rw [← h1]
      refine ⟨rfl, { th0 with phase := .running s.nextCid }, ?_, rfl⟩
      rw [Function.update_same]
    · rw [Function.update_noteq hcid] at hc
      obtain ⟨hex, th1, hth1, hph1⟩ := hi.callNoRes cid c hc hres
      have ho : c.owner ≠ t0 := by
        intro ho
        rw [ho, hth0] at hth1
        injection hth1 with h1
        rw [← h1, hph0] at hph1
        cases hph1
      refine ⟨hex, th1, ?_, hph1⟩
      rw [Function.update_noteq ho]
      exact hth1


theorem inv_enterJoin {s : Sys} (hi : Inv s) (t0 : Nat) (th0 : Thread) (cid0 : Nat)
    (hth0 : s.threads t0 = some th0) (hph0 : th0.phase = .start)
    (hm0 : lookupKey s.inflight th0.key = some cid0) :
    Inv { s with
          threads := Function.update s.threads t0 (some { th0 with phase := .waiting cid0 }) } := by
  have hko : ∀ {cid : Nat} {c : Call}, s.calls cid = some c → c.owner = t0 →
      ∀ {th1 : Thread}, s.threads c.owner = some th1 →
      (th1.phase = .running cid ∨ th1.phase = .stored cid) → False := by
    intro cid c _ ho th1 hth1 hph1
    rw [ho, hth0] at hth1
    injection hth1 with h1
    rw [← h1, hph0] at hph1
    rcases hph1 with h | h <;> simp at h
  refine ⟨?_, ?_, ?_, ?_, ?_, ?_, ?_, ?_, ?_⟩
  · intro cid hcid
    exact hi.callsBounded cid hcid
  · exact hi.inflightKeysNodup
  · intro k cid hmem
    dsimp only at hmem ⊢
    obtain ⟨c, hc, hkc, th1, hth1, hk1, hph1⟩ := hi.inflightOwnerLive k cid hmem
    have hne : c.owner ≠ t0 := fun ho => hko hc ho hth1 hph1
    refine ⟨c, hc, hkc, th1, ?_, hk1, hph1⟩
    rw [Function.update_noteq hne]
    exact hth1
  · intro t th cid hth hph
    dsimp only at hth ⊢
    by_cases ht : t = t0
    · subst ht
      rw [Function.update_same] at hth
      injection hth with h1
      rw [← h1] at hph
      dsimp only at hph
      cases hph
    · rw [Function.update_noteq ht] at hth
      exact hi.ownerRun t th cid hth hph
  · intro t th cid hth hph
    dsimp only at hth ⊢
    by_cases ht : t = t0
    · subst ht
      rw [Function.update_same] at hth
      injection hth with h1
      rw [← h1] at hph
      dsimp only at hph
      cases hph
    · rw [Function.update_noteq ht] at hth
      exact hi.ownerStored t th cid hth hph
  · intro t th cid hth hph
    dsimp only at hth ⊢
    by_cases ht : t = t0
    · subst ht
      rw [Function.update_same] at hth
      injection hth with h1
      rw [← h1] at hph
      dsimp only at hph
      injection hph with h2
      subst h2
      obtain ⟨c, hc, hkc, th1, hth1, hk1, hph1⟩ :=
        hi.inflightOwnerLive th0.key cid0 (lookupKey_mem hm0)
      refine ⟨c, hc, ?_⟩
      rw [← h1]
      exact hkc
    · rw [Function.update_noteq ht] at hth
      exact hi.waiterOk t th cid hth hph
  · intro t th cid r hth hph
    dsimp only at hth ⊢
    by_cases ht : t = t0
    · subst ht
      rw [Function.update_same] at hth
      injection hth with h1
      rw [← h1] at hph
      dsimp only at hph
      cases hph
    · rw [Function.update_noteq ht] at hth
      exact hi.finishedOk t th cid r hth hph
  · intro cid c r hc hres
    dsimp only at hc ⊢
    obtain ⟨hex, th1, hth1, hfn⟩ := hi.callRes cid c r hc hres
    refine ⟨hex, ?_⟩
    by_cases ho : c.owner = t0
    · refine ⟨{ th0 with phase := .waiting cid0 }, ?_, ?_⟩
      · rw [ho, Function.update_same]
      · rw [ho, hth0] at hth1
        injection hth1 with h1
        show th0.fnRes = r
        rw [h1]
        exact hfn
    · refine ⟨th1, ?_, hfn⟩
      rw [Function.update_noteq ho]
      exact hth1
  · intro cid c hc hres
    dsimp only at hc ⊢
    obtain ⟨hex, th1, hth1, hph1⟩ := hi.callNoRes cid c hc hres
    have ho : c.owner ≠ t0 := by
      intro ho
      rw [ho, hth0] at hth1
      injection hth1 with h1
      rw [← h1, hph0] at hph1
      cases hph1
    refine ⟨hex, th1, ?_, hph1⟩
    rw [Function.update_noteq ho]
    exact hth1


theorem inv_complete {s : Sys} (hi : Inv s) (t0 : Nat) (th0 : Thread) (cid0 : Nat) (c0 : Call)
    (hth0 : s.threads t0 = some th0) (hph0 : th0.phase = .running cid0)
    (hc0 : s.calls cid0 = some c0) :
    Inv { s with
          threads := Function.update s.threads t0 (some { th0 with phase := .stored cid0 }),
          calls := Function.update s.calls cid0
            (some { c0 with res := some th0.fnRes, execs := c0.execs + 1 }) } := by
  obtain ⟨c0', hc0', hoc, hresc, hexc, hkc, hlc⟩ := hi.ownerRun t0 th0 cid0 hth0 hph0
  rw [hc0] at hc0'
  have hcc0 := Option.some.inj hc0'
  rw [← hcc0] at hoc hresc hexc hkc
  have hko2 : ∀ {cid : Nat} {c : Call}, c.owner = t0 → cid ≠ cid0 →
      ∀ {th1 : Thread}, s.threads c.owner = some th1 →
      (th1.phase = .running cid ∨ th1.phase = .stored cid) → False := by
    intro cid c ho hne th1 hth1 hph1
    rw [ho, hth0] at hth1
    injection hth1 with h1
    rw [← h1, hph0] at hph1
    rcases hph1 with h | h
    · injection h with h2
      exact hne h2.symm
    · cases h
  refine ⟨?_, ?_, ?_, ?_, ?_, ?_, ?_, ?_, ?_⟩
  · intro cid hcid
    dsimp only at hcid ⊢
    have hlt := calls_lt hi hc0
    rw [Function.update_noteq (by omega : cid ≠ cid0)]
    exact hi.callsBounded cid hcid
  · exact hi.inflightKeysNodup
  · intro k cid hmem
    dsimp only at hmem ⊢
    obtain ⟨c, hc, hkc2, th1, hth1, hk1, hph1⟩ := hi.inflightOwnerLive k cid hmem
    by_cases hcid : cid = cid0
    · subst hcid
      rw [hc0] at hc
      have hcc := Option.some.inj hc
      subst hcc
      rw [hoc, hth0] at hth1
      injection hth1 with h1
      refine ⟨{ c0 with res := some th0.fnRes, execs := c0.execs + 1 }, ?_, ?_,
        { th0 with phase := .stored cid }, ?_, ?_, Or.inr rfl⟩
      · rw [Function.update_same]
      · exact hkc2
      · dsimp only
        rw [hoc, Function.update_same]
      · dsimp only
        rw [h1]
        exact hk1
    · have hno : c.owner ≠ t0 := fun ho => hko2 ho hcid hth1 hph1
      refine ⟨c, ?_, hkc2, th1, ?_, hk1, hph1⟩
      · rw [Function.update_noteq hcid]
        exact hc
      · rw [Function.update_noteq hno]
        exact hth1
  · intro t th cid hth hph
    dsimp only at hth ⊢
    by_cases ht : t = t0
    · subst ht
      rw [Function.update_same] at hth
      injection hth with h1
      rw [← h1] at hph
      dsimp only at hph
      cases hph
    · rw [Function.update_noteq ht] at hth
      obtain ⟨c, hc, ho2, hres2, hex2, hk2, hl2⟩ := hi.ownerRun t th cid hth hph
      have hcid : cid ≠ cid0 := by
        intro he
        subst he
        rw [hc0] at hc
        have hcc := Option.some.inj hc
        rw [← hcc] at ho2
        rw [hoc] at ho2
        exact ht ho2.symm
      refine ⟨c, ?_, ho2, hres2, hex2, hk2, hl2⟩
      rw [Function.update_noteq hcid]
      exact hc
  · intro t th cid hth hph
    dsimp only at hth ⊢
    by_cases ht : t = t0
    · subst ht
      rw [Function.update_same] at hth
      injection hth with h1
      rw [← h1] at hph
      dsimp only at hph
      injection hph with h2
      subst h2
      refine ⟨{ c0 with res := some th0.fnRes, execs := c0.execs + 1 },
        ?_, ?_, ?_, ?_, ?_, ?_⟩
      · rw [Function.update_same]
      · exact hoc
      · rw [← h1]
      · dsimp only
        omega
      · rw [← h1]
        dsimp only
        exact hkc
      · rw [← h1]
        dsimp only
        exact hlc
    · rw [Function.update_noteq ht] at hth
      obtain ⟨c, hc, ho2, hres2, hex2, hk2, hl2⟩ := hi.ownerStored t th cid hth hph
      have hcid : cid ≠ cid0 := by
        intro he
        subst he
        rw [hc0] at hc
        have hcc := Option.some.inj hc
        rw [← hcc] at ho2
        rw [hoc] at ho2
        exact ht ho2.symm
      refine ⟨c, ?_, ho2, hres2, hex2, hk2, hl2⟩
      rw [Function.update_noteq hcid]
      exact hc
  · intro t th cid hth hph
    dsimp only at hth ⊢
    by_cases ht : t = t0
    · subst ht
      rw [Function.update_same] at hth
      injection hth with h1
      rw [← h1] at hph
      dsimp only at hph
      cases hph
    · rw [Function.update_noteq ht] at hth
      obtain ⟨c, hc, hkc2⟩ := hi.waiterOk t th cid hth hph
      by_cases hcid : cid = cid0
      · subst hcid
        rw [hc0] at hc
        have hcc := Option.some.inj hc
        refine ⟨{ c0 with res := some th0.fnRes, execs := c0.execs + 1 }, ?_, ?_⟩
        · rw [Function.update_same]
        · dsimp only
          rw [hcc]
          exact hkc2
      · refine ⟨c, ?_, hkc2⟩
        rw [Function.update_noteq hcid]
        exact hc
  · intro t th cid r hth hph
    dsimp only at hth ⊢
    by_cases ht : t = t0
    · subst ht
      rw [Function.update_same] at hth
      injection hth with h1
      rw [← h1] at hph
      dsimp only at hph
      cases hph
    · rw [Function.update_noteq ht] at hth
      obtain ⟨c, hc, hres2⟩ := hi.finishedOk t th cid r hth hph
      have hcid : cid ≠ cid0 := by
        intro he
        subst he
        rw [hc0] at hc
        have hcc := Option.some.inj hc
        rw [← hcc] at hres2
        rw [hresc] at hres2
        cases hres2
      refine ⟨c, ?_, hres2⟩
      rw [Function.update_noteq hcid]
      exact hc
  · intro cid c r hc hres
    dsimp only at hc ⊢
    by_cases hcid : cid = cid0
    · subst hcid
      rw [Function.update_same] at hc
      have hcc := Option.some.inj hc
      rw [← hcc] at hres
      dsimp only at hres
      have hr := Option.some.inj hres
      refine ⟨?_, { th0 with phase := .stored cid }, ?_, ?_⟩
      · rw [← hcc]
        dsimp only
        omega
      · rw [← hcc]
        dsimp only
        rw [hoc, Function.update_same]
      · dsimp only
        exact hr
    · rw [Function.update_noteq hcid] at hc
      obtain ⟨hex2, th1, hth1, hfn⟩ := hi.callRes cid c r hc hres
      refine ⟨hex2, ?_⟩
      by_cases ho : c.owner = t0
      · refine ⟨{ th0 with phase := .stored cid0 }, ?_, ?_⟩
        · rw [ho, Function.update_same]
        · rw [ho, hth0] at hth1
          injection hth1 with h1
          show th0.fnRes = r
          rw [h1]
          exact hfn
      · refine ⟨th1, ?_, hfn⟩
        rw [Function.update_noteq ho]
        exact hth1
  · intro cid c hc hres
    dsimp only at hc ⊢
    by_cases hcid : cid = cid0
    · subst hcid
      rw [Function.update_same] at hc
      have hcc := Option.some.inj hc
      rw [← hcc] at hres
      dsimp only at hres
      cases hres
    · rw [Function.update_noteq hcid] at hc
      obtain ⟨hex2, th1, hth1, hph1⟩ := hi.callNoRes cid c hc hres
      have ho : c.owner ≠ t0 := by
        intro ho
        rw [ho, hth0] at hth1
        injection hth1 with h1
        rw [← h1, hph0] at hph1
        injection hph1 with h2
        exact hcid h2.symm
      refine ⟨hex2, th1, ?_, hph1⟩
      rw [Function.update_noteq ho]
      exact hth1


theorem inv_removeReturn {s : Sys} (hi : Inv s) (t0 : Nat) (th0 : Thread) (cid0 : Nat)
    (c0 : Call) (r0 : Res)
    (hth0 : s.threads t0 = some th0) (hph0 : th0.phase = .stored cid0)
    (hc0 : s.calls cid0 = some c0) (hr0 : c0.res = some r0) :
    Inv { s with
          threads :=
            Function.update s.threads t0 (some { th0 with phase := .finished cid0 r0 }),
          inflight := eraseKey s.inflight th0.key } := by
  obtain ⟨c0', hc0', hoc, hresc, hexc, hkc, hlc⟩ := hi.ownerStored t0 th0 cid0 hth0 hph0
  rw [hc0] at hc0'
  have hcc0 := Option.some.inj hc0'
  rw [← hcc0] at hoc hresc hexc hkc
  refine ⟨?_, ?_, ?_, ?_, ?_, ?_, ?_, ?_, ?_⟩
  · intro cid hcid
    exact hi.callsBounded cid hcid
  · exact hi.inflightKeysNodup.sublist
      (List.Sublist.map Prod.fst (eraseKey_sublist s.inflight th0.key))
  · intro k cid hmem
    dsimp only at hmem ⊢
    have hmem' : (k, cid) ∈ s.inflight := (eraseKey_sublist s.inflight th0.key).subset hmem
    obtain ⟨c, hc, hkc2, th1, hth1, hk1, hph1⟩ := hi.inflightOwnerLive k cid hmem'
    have hno : c.owner ≠ t0 := by
      intro ho
      rw [ho, hth0] at hth1
      injection hth1 with h1
      rw [← h1, hph0] at hph1
      rcases hph1 with h | h
      · cases h
      · injection h with h2
        subst h2
        rw [hc0] at hc
        have hcc := Option.some.inj hc
        rw [← hcc] at hkc2
        rw [hkc] at hkc2
        have hbad : th0.key ∈ (eraseKey s.inflight th0.key).map Prod.fst :=
          List.mem_map.mpr ⟨(k, cid0), hmem, hkc2.symm⟩
        exact not_mem_map_fst_eraseKey hi.inflightKeysNodup hbad
    refine ⟨c, hc, hkc2, th1, ?_, hk1, hph1⟩
    rw [Function.update_noteq hno]
    exact hth1
  · intro t th cid hth hph
    dsimp only at hth ⊢
    by_cases ht : t = t0
    · subst ht
      rw [Function.update_same] at hth
      injection hth with h1
      rw [← h1] at hph
      dsimp only at hph
      cases hph
    · rw [Function.update_noteq ht] at hth
      obtain ⟨c, hc, ho2, hres2, hex2, hk2, hl2⟩ := hi.ownerRun t th cid hth hph
      have hkne : th.key ≠ th0.key := by
        intro he
        rw [he] at hl2
        rw [hlc] at hl2
        have h2 := Option.some.inj hl2
        subst h2
        rw [hc0] at hc
        have hcc := Option.some.inj hc
        rw [← hcc] at ho2
        rw [hoc] at ho2
        exact ht ho2.symm
      refine ⟨c, hc, ho2, hres2, hex2, hk2, ?_⟩
      rw [lookupKey_eraseKey_ne s.inflight hkne]
      exact hl2
  · intro t th cid hth hph
    dsimp only at hth ⊢
    by_cases ht : t = t0
    · subst ht
      rw [Function.update_same] at hth
      injection hth with h1
      rw [← h1] at hph
      dsimp only at hph
      cases hph
    · rw [Function.update_noteq ht] at hth
      obtain ⟨c, hc, ho2, hres2, hex2, hk2, hl2⟩ := hi.ownerStored t th cid hth hph
      have hkne : th.key ≠ th0.key := by
        intro he
        rw [he] at hl2
        rw [hlc] at hl2
        have h2 := Option.some.inj hl2
        subst h2
        rw [hc0] at hc
        have hcc := Option.some.inj hc
        rw [← hcc] at ho2
        rw [hoc] at ho2
        exact ht ho2.symm
      refine ⟨c, hc, ho2, hres2, hex2, hk2, ?_⟩
      rw [lookupKey_eraseKey_ne s.inflight hkne]
      exact hl2
  · intro t th cid hth hph
    dsimp only at hth ⊢
    by_cases ht : t = t0
    · subst ht
      rw [Function.update_same] at hth
      injection hth with h1
      rw [← h1] at hph
      dsimp only at hph
      cases hph
    · rw [Function.update_noteq ht] at hth
      exact hi.waiterOk t th cid hth hph
  · intro t th cid r hth hph
    dsimp only at hth ⊢
    by_cases ht : t = t0
    · subst ht
      rw [Function.update_same] at hth
      injection hth with h1
      rw [← h1] at hph
      dsimp only at hph
      injection hph with h2 h3
      subst h2
      subst h3
      exact ⟨c0, hc0, hr0⟩
    · rw [Function.update_noteq ht] at hth
      exact hi.finishedOk t th cid r hth hph
  · intro cid c r hc hres
    dsimp only at hc ⊢
    obtain ⟨hex2, th1, hth1, hfn⟩ := hi.callRes cid c r hc hres
    refine ⟨hex2, ?_⟩
    by_cases ho : c.owner = t0
    · refine ⟨{ th0 with phase := .finished cid0 r0 }, ?_, ?_⟩
      · rw [ho, Function.update_same]
      · rw [ho, hth0] at hth1
        injection hth1 with h1
        show th0.fnRes = r
        rw [h1]
        exact hfn
    · refine ⟨th1, ?_, hfn⟩
      rw [Function.update_noteq ho]
      exact hth1
  · intro cid c hc hres
    dsimp only at hc ⊢
    obtain ⟨hex2, th1, hth1, hph1⟩ := hi.callNoRes cid c hc hres
    have ho : c.owner ≠ t0 := by
      intro ho
      rw [ho, hth0] at hth1
      injection hth1 with h1
      rw [← h1, hph0] at hph1
      cases hph1
    refine ⟨hex2, th1, ?_, hph1⟩
    rw [Function.update_noteq ho]
    exact hth1

theorem inv_wake {s : Sys} (hi : Inv s) (t0 : Nat) (th0 : Thread) (cid0 : Nat)
    (c0 : Call) (r0 : Res)
    (hth0 : s.threads t0 = some th0) (hph0 : th0.phase = .waiting cid0)
    (hc0 : s.calls cid0 = some c0) (hr0 : c0.res = some r0) :
    Inv { s with
          threads :=
            Function.update s.threads t0 (some { th0 with phase := .finished cid0 r0 }) } := by
  have hko : ∀ {cid : Nat} {c : Call}, c.owner = t0 →
      ∀ {th1 : Thread}, s.threads c.owner = some th1 →
      (th1.phase = .running cid ∨ th1.phase = .stored cid) → False := by
    intro cid c ho th1 hth1 hph1
    rw [ho, hth0] at hth1
    injection hth1 with h1
    rw [← h1, hph0] at hph1
    rcases hph1 with h | h <;> cases h
  refine ⟨?_, ?_, ?_, ?_, ?_, ?_, ?_, ?_, ?_⟩
  · intro cid hcid
    exact hi.callsBounded cid hcid
  · exact hi.inflightKeysNodup
  · intro k cid hmem
    dsimp only at hmem ⊢
    obtain ⟨c, hc, hkc2, th1, hth1, hk1, hph1⟩ := hi.inflightOwnerLive k cid hmem
    have hno : c.owner ≠ t0 := fun ho => hko ho hth1 hph1
    refine ⟨c, hc, hkc2, th1, ?_, hk1, hph1⟩
    rw [Function.update_noteq hno]
    exact hth1
  · intro t th cid hth hph
    dsimp only at hth ⊢
    by_cases ht : t = t0
    · subst ht
      rw [Function.update_same] at hth
      injection hth with h1
      rw [← h1] at hph
      dsimp only at hph
      cases hph
    · rw [Function.update_noteq ht] at hth
      exact hi.ownerRun t th cid hth hph
  · intro t th cid hth hph
    dsimp only at hth ⊢
    by_cases ht : t = t0
    · subst ht
      rw [Function.update_same] at hth
      injection hth with h1
      rw [← h1] at hph
      dsimp only at hph
      cases hph
    · rw [Function.update_noteq ht] at hth
      exact hi.ownerStored t th cid hth hph
  · intro t th cid hth hph
    dsimp only at hth ⊢
    by_cases ht : t = t0
    · subst ht
      rw [Function.update_same] at hth
      injection hth with h1
      rw [← h1] at hph
      dsimp only at hph
      cases hph
    · rw [Function.update_noteq ht] at hth
      exact hi.waiterOk t th cid hth hph
  · intro t th cid r hth hph
    dsimp only at hth ⊢
    by_cases ht : t = t0
    · subst ht
      rw [Function.update_same] at hth
      injection hth with h1
      rw [← h1] at hph
      dsimp only at hph
      injection hph with h2 h3
      subst h2
      subst h3
      exact ⟨c0, hc0, hr0⟩
    · rw [Function.update_noteq ht] at hth
      exact hi.finishedOk t th cid r hth hph
  · intro cid c r hc hres
    dsimp only at hc ⊢
    obtain ⟨hex2, th1, hth1, hfn⟩ := hi.callRes cid c r hc hres
    refine ⟨hex2, ?_⟩
    by_cases ho : c.owner = t0
    · refine ⟨{ th0 with phase := .finished cid0 r0 }, ?_, ?_⟩
      · rw [ho, Function.update_same]
      · rw [ho, hth0] at hth1
        injection hth1 with h1
        show th0.fnRes = r
        rw [h1]
        exact hfn
    · refine ⟨th1, ?_, hfn⟩
      rw [Function.update_noteq ho]
      exact hth1
  · intro cid c hc hres
    dsimp only at hc ⊢
    obtain ⟨hex2, th1, hth1, hph1⟩ := hi.callNoRes cid c hc hres
    have ho : c.owner ≠ t0 := fun ho => hko ho hth1 (Or.inl hph1)
    refine ⟨hex2, th1, ?_, hph1⟩
    rw [Function.update_noteq ho]
    exact hth1

theorem inv_step {s s1 : Sys} (hi : Inv s) (hstep : Step s s1) : Inv s1 := by
  cases hstep with
  | enterNew t th hth hph hm => exact inv_enterNew hi t th hth hph hm
  | enterJoin t th cid hth hph hm => exact inv_enterJoin hi t th cid hth hph hm
  | complete t th cid c hth hph hc => exact inv_complete hi t th cid c hth hph hc
  | removeReturn t th cid c r hth hph hc hr =>
      exact inv_removeReturn hi t th cid c r hth hph hc hr
  | wake t th cid c r hth hph hc hr => exact inv_wake hi t th cid c r hth hph hc hr

theorem inv_reachable {spec : Nat → Option (Bytes × Res)} {s : Sys}
    (h : Reachable spec s) : Inv s := by
  induction h with
  | init => exact inv_init spec
  | step hr hs ih => exact inv_step ih hs


/-- C2: for a reachable coalescer state, every call's fn has run at most
once; all finished callers of one call got the identical (value, err) pair;
a delivered result is exactly the one produced by the call's single executor;
and a caller arriving for a key with no in-flight entry starts a brand-new
call (so a later Do re-executes fn). -/
theorem singleflight_contract (spec : Nat → Option (Bytes × Res)) (s : Sys)
    (hreach : Reachable spec s) :
    (∀ cid c, s.calls cid = some c → c.execs ≤ 1) ∧
    (∀ t1 t2 th1 th2 cid r1 r2, s.threads t1 = some th1 → s.threads t2 = some th2 →
      th1.phase = .finished cid r1 → th2.phase = .finished cid r2 → r1 = r2) ∧
    (∀ t th cid r, s.threads t = some th → th.phase = .finished cid r →
      ∃ c, s.calls cid = some c ∧ c.res = some r ∧ c.execs = 1 ∧
        ∃ tho, s.threads c.owner = some tho ∧ tho.fnRes = r) ∧
    (∀ t th, s.threads t = some th → th.phase = .start →
      lookupKey s.inflight th.key = none →
      s.calls s.nextCid = none ∧
      Step s
        { threads :=
            Function.update s.threads t (some { th with phase := .running s.nextCid }),
          calls := Function.update s.calls s.nextCid (some ⟨th.key, t, none, 0⟩),
          nextCid := s.nextCid + 1,
          inflight := (th.key, s.nextCid) :: s.inflight }) := by
  have hi := inv_reachable hreach
  refine ⟨?_, ?_, ?_, ?_⟩
  · intro cid c hc
    cases hres : c.res with
    | none =>
        have h := (hi.callNoRes cid c hc hres).1
        omega
    | some r =>
        have h := (hi.callRes cid c r hc hres).1
        omega
  · intro t1 t2 th1 th2 cid r1 r2 h1 h2 hp1 hp2
    obtain ⟨c, hc, hr1⟩ := hi.finishedOk t1 th1 cid r1 h1 hp1
    obtain ⟨c', hc', hr2⟩ := hi.finishedOk t2 th2 cid r2 h2 hp2
    rw [hc] at hc'
    have hcc := Option.some.inj hc'
    rw [← hcc] at hr2
    rw [hr1] at hr2
    exact Option.some.inj hr2
  · intro t th cid r hth hph
    obtain ⟨c, hc, hr⟩ := hi.finishedOk t th cid r hth hph
    obtain ⟨hex, tho, htho, hfn⟩ := hi.callRes cid c r hc hr
    exact ⟨c, hc, hr, hex, tho, htho, hfn⟩
  · intro t th hth hph hm
    exact ⟨hi.callsBounded s.nextCid (le_refl _), Step.enterNew s t th hth hph hm⟩

/-- Two concurrent Do callers for key "k": caller 0 would compute (1, nil),
caller 1 would compute (2, nil). -/
def sfSpec : Nat → Option (Bytes × Res) :=
  fun t => if t = 0 then some ([107], ⟨1, none⟩)
    else if t = 1 then some ([107], ⟨2, none⟩) else none

def sfTh0 : Thread := { key := [107], fnRes := ⟨1, none⟩, phase := .start }

def sfTh1 : Thread := { key := [107], fnRes := ⟨2, none⟩, phase := .start }

def sfTh0R : Thread := { sfTh0 with phase := .running 0 }

def sfTh0S : Thread := { sfTh0 with phase := .stored 0 }

def sfTh1W : Thread := { sfTh1 with phase := .waiting 0 }

def sfR : Res := ⟨1, none⟩

def sfC0 : Call := ⟨[107], 0, none, 0⟩

def sfC1 : Call := ⟨[107], 0, some sfR, 1⟩

def sfS0 : Sys := init sfSpec

def sfS1 : Sys :=
  { threads := Function.update sfS0.threads 0 (some { sfTh0 with phase := .running sfS0.nextCid }),
    calls := Function.update sfS0.calls sfS0.nextCid (some ⟨sfTh0.key, 0, none, 0⟩),
    nextCid := sfS0.nextCid + 1,
    inflight := (sfTh0.key, sfS0.nextCid) :: sfS0.inflight }

def sfS2 : Sys :=
  { sfS1 with threads := Function.update sfS1.threads 1 (some { sfTh1 with phase := .waiting 0 }) }

def sfS3 : Sys :=
  { sfS2 with
    threads := Function.update sfS2.threads 0 (some { sfTh0R with phase := .stored 0 }),
    calls := Function.update sfS2.calls 0
      (some { sfC0 with res := some sfTh0R.fnRes, execs := sfC0.execs + 1 }) }

def sfS4 : Sys :=
  { sfS3 with
    threads := Function.update sfS3.threads 0 (some { sfTh0S with phase := .finished 0 sfR }),
    inflight := eraseKey sfS3.inflight sfTh0S.key }

def sfS5 : Sys :=
  { sfS4 with
    threads := Function.update sfS4.threads 1 (some { sfTh1W with phase := .finished 0 sfR }) }

/-- C2 witness: after caller 0 executes and returns and caller 1 wakes, both
callers finished with caller 0's result (1, nil) — caller 1's own fn, which
would have produced (2, nil), never ran — and the contract holds there. -/
theorem singleflight_contract_witness :
    Reachable sfSpec sfS5 ∧
    sfS5.threads 0 = some { key := [107], fnRes := ⟨1, none⟩, phase := .finished 0 ⟨1, none⟩ } ∧
    sfS5.threads 1 = some { key := [107], fnRes := ⟨2, none⟩, phase := .finished 0 ⟨1, none⟩ } ∧
    ((∀ cid c, sfS5.calls cid = some c → c.execs ≤ 1) ∧
    (∀ t1 t2 th1 th2 cid r1 r2, sfS5.threads t1 = some th1 → sfS5.threads t2 = some th2 →
      th1.phase = .finished cid r1 → th2.phase = .finished cid r2 → r1 = r2) ∧
    (∀ t th cid r, sfS5.threads t = some th → th.phase = .finished cid r →
      ∃ c, sfS5.calls cid = some c ∧ c.res = some r ∧ c.execs = 1 ∧
        ∃ tho, sfS5.threads c.owner = some tho ∧ tho.fnRes = r) ∧
    (∀ t th, sfS5.threads t = some th → th.phase = .start →
      lookupKey sfS5.inflight th.key = none →
      sfS5.calls sfS5.nextCid = none ∧
      Step sfS5
        { threads :=
            Function.update sfS5.threads t (some { th with phase := .running sfS5.nextCid }),
          calls := Function.update sfS5.calls sfS5.nextCid (some ⟨th.key, t, none, 0⟩),
          nextCid := sfS5.nextCid + 1,
          inflight := (th.key, sfS5.nextCid) :: sfS5.inflight })) := by
  have h1 : Step sfS0 sfS1 := Step.enterNew sfS0 0 sfTh0 rfl rfl rfl
  have h2 : Step sfS1 sfS2 := Step.enterJoin sfS1 1 sfTh1 0 rfl rfl rfl
  have h3 : Step sfS2 sfS3 := Step.complete sfS2 0 sfTh0R 0 sfC0 rfl rfl rfl
  have h4 : Step sfS3 sfS4 := Step.removeReturn sfS3 0 sfTh0S 0 sfC1 sfR rfl rfl rfl rfl
  have h5 : Step sfS4 sfS5 := Step.wake sfS4 1 sfTh1W 0 sfC1 sfR rfl rfl rfl rfl
  have hreach : Reachable sfSpec sfS5 :=
    Reachable.step (Reachable.step (Reachable.step (Reachable.step
      (Reachable.step Reachable.init h1) h2) h3) h4) h5
  exact ⟨hreach, rfl, rfl, singleflight_contract sfSpec sfS5 hreach⟩

end Singleflight
